import Mathlib

/-!
# Verification of the `text_cleaner` module (`src/scr/text_cleaner.py`)

Strings are modelled as `List Char` (a Python `str` is a sequence of Unicode
codepoints).  Each pipeline stage of `TextCleaner.clean` is translated into an
executable Lean function; regular-expression substitutions over fixed
character classes become `map`/`filter` over the corresponding character
sets, and the scanning substitutions (`re.sub` with the tag patterns, the
whitespace-collapsing patterns, and `str.replace`) become fuelled recursive
scanners with the same leftmost, non-overlapping semantics.  The fuel is
always instantiated with the length of the scanned list, which every scanner
consumes at least one element of per step, so the fuelled functions agree
with the unbounded scans.
-/

/-- A Python string, as its list of codepoints. -/
abbrev Str := List Char

namespace TextCleaner

/-! ## Character tables (source lines 33-124) -/

/-- `TextCleaner.QUOTES` (source lines 33-45), codepoint for codepoint:
`'"'`, `"'"`, `«»`, `„` plus ASCII `"`, `‟` plus ASCII `"`, `'`, `‛`,
a backtick and `´`, `″′`, `〝〞`, `＂`.  (The source lines commented
"German quotes", "Double high quotes" and "Single curly quotes" contain the
ASCII quote or apostrophe as their closing characters: the file's bytes hold
U+0022 and U+0027 there, not U+201C/U+201D nor U+2018/U+2019.) -/
def QUOTES : Str :=
  ['"', '\'', '«', '»', '„', '"', '‟', '"', '\'', '‛', '`', '´', '″', '′',
   '〝', '〞', '＂']

/-- `TextCleaner.SPECIAL_SPACES` (source lines 48-67); the Python literal is
a set, and its two spellings of NBSP collapse to one member. -/
def SPECIAL_SPACES : Str :=
  [' ', ' ', ' ', ' ', ' ', ' ', ' ',
   ' ', ' ', ' ', ' ', ' ', '​', ' ',
   ' ', '　', '﻿']

/-- `TextCleaner.DASHES` (source lines 70-81), in the dict's insertion
order. -/
def DASHES : List (Char × Char) :=
  [('–', '-'), ('—', '-'), ('―', '-'), ('‐', '-'), ('‑', '-'), ('‒', '-'),
   ('−', '-'), ('⁃', '-'), ('﹣', '-'), ('－', '-')]

/-- `TextCleaner.HTML_ENTITIES` (source lines 84-110), in the dict's
insertion order. -/
def HTML_ENTITIES : List (String × String) :=
  [("&nbsp;", " "), ("&amp;", "&"), ("&lt;", "<"), ("&gt;", ">"),
   ("&quot;", "\""), ("&apos;", "'"), ("&#39;", "'"), ("&#34;", "\""),
   ("&mdash;", "-"), ("&ndash;", "-"), ("&bull;", "•"), ("&copy;", "©"),
   ("&reg;", "®"), ("&trade;", "™"), ("&euro;", "€"), ("&pound;", "£"),
   ("&yen;", "¥"), ("&cent;", "¢"), ("&deg;", "°"), ("&plusmn;", "±"),
   ("&times;", "×"), ("&divide;", "÷"), ("&frac12;", "½"),
   ("&frac14;", "¼"), ("&frac34;", "¾")]

/-- The explicitly listed members of `TextCleaner.INVISIBLE_CHARS` beyond
the control range (source lines 115-124). -/
def INVISIBLE_EXTRA : Str :=
  ['‌', '‍', '⁠', '⁣', '⁤', '￾', '￿',
   '�']

/-- Membership in `TextCleaner.INVISIBLE_CHARS` (source lines 113-124):
codepoints below 32 other than tab, newline and carriage return, plus the
listed zero-width/invalid codepoints. -/
def INVISIBLE_CHARS (c : Char) : Bool :=
  (c.toNat < 32 && !(c = '\t' || c = '\n' || c = '\r'))
    || INVISIBLE_EXTRA.contains c

/-! ## Python string primitives -/

/-- Python's `str.isspace` character set, which is also the character set of
`\s` in a Python `str` regular expression: the ASCII whitespace characters,
the C1 separators, and the Unicode space separators. -/
def pyIsSpace (c : Char) : Bool :=
  c = ' ' || c = '\t' || c = '\n' || c = '\r' || c = '\u000B' || c = '\u000C'
    || (0x1C ≤ c.toNat && c.toNat ≤ 0x1F) || c.toNat = 0x85
    || c.toNat = 0xA0 || c.toNat = 0x1680
    || (0x2000 ≤ c.toNat && c.toNat ≤ 0x200A)
    || c.toNat = 0x2028 || c.toNat = 0x2029 || c.toNat = 0x202F
    || c.toNat = 0x205F || c.toNat = 0x3000

/-- `str.lstrip()` with no argument: drop leading whitespace. -/
def pyStripStart (s : Str) : Str := s.dropWhile pyIsSpace

/-- `str.rstrip()` with no argument: drop trailing whitespace. -/
def pyStripEnd (s : Str) : Str := (s.reverse.dropWhile pyIsSpace).reverse

/-- `str.strip()` with no argument. -/
def pyStrip (s : Str) : Str := pyStripEnd (pyStripStart s)

/-- `str.lower()`, modelled codepoint-wise on the ASCII range (the claims
under verification exercise no case mapping outside ASCII). -/
def pyToLower (c : Char) : Char :=
  if 65 ≤ c.toNat ∧ c.toNat ≤ 90 then Char.ofNat (c.toNat + 32) else c

/-- `str.upper()`, modelled codepoint-wise on the ASCII range. -/
def pyToUpper (c : Char) : Char :=
  if 97 ≤ c.toNat ∧ c.toNat ≤ 122 then Char.ofNat (c.toNat - 32) else c

/-- One step bound for `str.replace`: fuelled scan.  `strReplaceF p r f s`
replaces non-overlapping occurrences of `p` in `s` by `r`, scanning left to
right and continuing after each replaced occurrence, exactly as Python's
`str.replace`. -/
def strReplaceF (p r : Str) : Nat → Str → Str
  | 0, s => s
  | _ + 1, [] => []
  | f + 1, c :: cs =>
    if p.isPrefixOf (c :: cs) then
      r ++ strReplaceF p r f ((c :: cs).drop p.length)
    else
      c :: strReplaceF p r f cs

/-- `str.replace(p, r)` for a nonempty pattern `p`. -/
def strReplace (p r s : Str) : Str := strReplaceF p r s.length s

/-! ## html.unescape (Python standard library)

Modelled from the standard library: `html.unescape` substitutes character
references left to right and does not rescan its own output.  The model
covers named references terminated by a semicolon drawn from the table
below, and decimal numeric references terminated by a semicolon; other
reference forms (hexadecimal, semicolon-less) do not occur in any input
of this development and are left verbatim. -/

/-- Named character references recognised by the `html.unescape` model. -/
def NAMED_REFS : List (String × Char) :=
  [("amp", '&'), ("lt", '<'), ("gt", '>'), ("quot", '"'), ("apos", '\''),
   ("nbsp", ' '), ("copy", '©'), ("reg", '®'), ("mdash", '—'),
   ("ndash", '–'), ("bull", '•'), ("euro", '€')]

/-- Try to read one character reference right after a `&`; returns the
decoded character and the number of codepoints consumed (after the `&`). -/
def tryRef (rest : Str) : Option (Char × Nat) :=
  match rest with
  | '#' :: ds =>
    let digits := ds.takeWhile Char.isDigit
    if digits = [] then none
    else match ds.drop digits.length with
      | ';' :: _ =>
        let v := digits.foldl (fun a c => a * 10 + (c.toNat - 48)) 0
        some (if v.isValidChar then Char.ofNat v else '�',
              digits.length + 2)
      | _ => none
  | _ =>
    match NAMED_REFS.find? (fun nr => (nr.1.data ++ [';']).isPrefixOf rest) with
    | some nr => some (nr.2, nr.1.data.length + 1)
    | none => none

/-- Fuelled scan for `html.unescape`. -/
def htmlUnescapeF : Nat → Str → Str
  | 0, s => s
  | _ + 1, [] => []
  | f + 1, c :: cs =>
    if c = '&' then
      match tryRef cs with
      | some dc => dc.1 :: htmlUnescapeF f (cs.drop dc.2)
      | none => '&' :: htmlUnescapeF f cs
    else
      c :: htmlUnescapeF f cs

/-- `html.unescape`. -/
def htmlUnescape (s : Str) : Str := htmlUnescapeF s.length s

/-- The loop of source lines 227-228: replace every literal occurrence of
each `HTML_ENTITIES` key by its value, key after key in dict order. -/
def applyEntities (s : Str) : Str :=
  HTML_ENTITIES.foldl (fun t e => strReplace e.1.data e.2.data t) s

/-! ## Tag substitutions (source lines 231-236) -/

/-- Head matcher for `<br\s*/?>` (case-insensitive); returns the rest after
the match. -/
def matchBr : Str → Option Str
  | '<' :: b :: r :: rest =>
    if (b = 'b' || b = 'B') && (r = 'r' || r = 'R') then
      match rest.dropWhile pyIsSpace with
      | '/' :: '>' :: t => some t
      | '>' :: t => some t
      | _ => none
    else none
  | _ => none

/-- After `<` and an optional `/`: expects `p\s*/?>` (case-insensitive). -/
def matchPTail : Str → Option Str
  | p :: rest =>
    if p = 'p' || p = 'P' then
      match rest.dropWhile pyIsSpace with
      | '/' :: '>' :: t => some t
      | '>' :: t => some t
      | _ => none
    else none
  | [] => none

/-- Head matcher for `</?p\s*/?>` (case-insensitive). -/
def matchP : Str → Option Str
  | '<' :: '/' :: rest => matchPTail rest
  | '<' :: rest => matchPTail rest
  | _ => none

/-- Head matcher for `<li[^>]*>` (case-insensitive). -/
def matchLi : Str → Option Str
  | '<' :: l :: i :: rest =>
    if (l = 'l' || l = 'L') && (i = 'i' || i = 'I') then
      match rest.dropWhile (fun c => c ≠ '>') with
      | '>' :: t => some t
      | _ => none
    else none
  | _ => none

/-- Head matcher for `<[^>]+>`: a `<`, at least one non-`>` codepoint, then
the first following `>`. -/
def matchTag : Str → Option Str
  | '<' :: c :: rest =>
    if c = '>' then none
    else match rest.dropWhile (fun x => x ≠ '>') with
      | '>' :: t => some t
      | _ => none
  | _ => none

/-- Fuelled leftmost-match scanner: wherever the head matcher fires, emit
the replacement and continue after the match; otherwise advance one
codepoint.  This is `re.sub` for patterns without zero-width matches. -/
def subF (m : Str → Option Str) (rep : Str) : Nat → Str → Str
  | 0, s => s
  | _ + 1, [] => []
  | f + 1, c :: cs =>
    match m (c :: cs) with
    | some rest => rep ++ subF m rep f rest
    | none => c :: subF m rep f cs

/-- `re.sub` of a head matcher over a whole string. -/
def subScan (m : Str → Option Str) (rep : Str) (s : Str) : Str :=
  subF m rep s.length s

/-- `re.sub(r'<br\s*/?>', '\n', text, flags=re.IGNORECASE)`. -/
def subBr (s : Str) : Str := subScan matchBr ['\n'] s

/-- `re.sub(r'</?p\s*/?>', '\n', text, flags=re.IGNORECASE)`. -/
def subP (s : Str) : Str := subScan matchP ['\n'] s

/-- `re.sub(r'<li[^>]*>', '\n• ', text, flags=re.IGNORECASE)`. -/
def subLi (s : Str) : Str := subScan matchLi ['\n', '•', ' '] s

/-- `self._html_tag_pattern.sub('', text)` with pattern `<[^>]+>`. -/
def subTags (s : Str) : Str := subScan matchTag [] s

/-! ## Whitespace handling (source lines 264-274) -/

/-- Membership in the regex class `[ \t]`. -/
def isSpTab (c : Char) : Bool := c = ' ' || c = '\t'

/-- `re.sub(r'[ \t]+', ' ', text)`: each maximal run of spaces and tabs
becomes a single space. -/
def multiSpaceSub : Str → Str
  | [] => []
  | c :: cs =>
    if isSpTab c then
      match cs with
      | [] => [' ']
      | d :: _ => if isSpTab d then multiSpaceSub cs else ' ' :: multiSpaceSub cs
    else c :: multiSpaceSub cs

/-- The whitespace run following a leading newline: the codepoints matched
by `\s*\n+` start inside this run. -/
def nlRun (cs : Str) : Str := cs.takeWhile pyIsSpace

/-- How many codepoints after a leading newline the greedy `\n\s*\n+` match
consumes: through the last newline of the following whitespace run. -/
def nlSkip (cs : Str) : Nat :=
  (nlRun cs).length - ((nlRun cs).reverse.takeWhile (fun x => x ≠ '\n')).length

/-- Fuelled scan for `re.sub(r'\n\s*\n+', '\n\n', text)`.  At a newline
whose following whitespace run contains another newline, the greedy match
extends through the last newline of that run and is replaced by exactly two
newlines; scanning continues after the match. -/
def multiNewlineF : Nat → Str → Str
  | 0, s => s
  | _ + 1, [] => []
  | f + 1, c :: cs =>
    if c = '\n' then
      if (nlRun cs).contains '\n' then
        '\n' :: '\n' :: multiNewlineF f (cs.drop (nlSkip cs))
      else
        '\n' :: multiNewlineF f cs
    else c :: multiNewlineF f cs

/-- `re.sub(r'\n\s*\n+', '\n\n', text)`. -/
def multiNewlineSub (s : Str) : Str := multiNewlineF s.length s

/-- `'\n'.join(line.strip() for line in text.split('\n'))`
(source lines 269-270). -/
def stripLinesF : Nat → Str → Str
  | 0, s => s
  | f + 1, s =>
    let line := s.takeWhile (fun c => c ≠ '\n')
    match s.dropWhile (fun c => c ≠ '\n') with
    | '\n' :: r => pyStrip line ++ '\n' :: stripLinesF f r
    | _ => pyStrip line

/-- Split on newlines, strip every line, rejoin with newlines. -/
def stripLines (s : Str) : Str := stripLinesF s.length s

/-! ## Truncation helper (source lines 284-285 and 371-376) -/

/-- The prefix of `l` that precedes its last space, when a space occurs. -/
def beforeLastSpace : Str → Option Str
  | [] => none
  | c :: cs =>
    match beforeLastSpace cs with
    | some p => some (c :: p)
    | none => if c = ' ' then some [] else none

/-- `l.rsplit(' ', 1)[0]`: everything before the last space, or all of `l`
when it has no space. -/
def rsplitBeforeLastSpace (l : Str) : Str :=
  match beforeLastSpace l with
  | some p => p
  | none => l

/-! ## Configuration and the `clean` pipeline (source lines 130-287) -/

/-- An item of a compiled regex character class. -/
inductive ClassItem where
  | lit : Char → ClassItem
  | range : Char → Char → ClassItem
deriving DecidableEq

/-- A compiled regex character class body. -/
abbrev CharClass := List ClassItem

/-- Whether codepoint `c` matches the class body `cls`. -/
def matchesClass (cls : CharClass) (c : Char) : Bool :=
  cls.any fun it =>
    match it with
    | .lit a => c = a
    | .range a b => a.toNat ≤ c.toNat && c.toNat ≤ b.toNat

/-- The constructor options of `TextCleaner.__init__` (source lines
130-170).  `allowed_chars` is held here in compiled form; the raw,
caller-supplied pattern fragment and its clean-time compilation are
modelled separately below for the error-handling analysis. -/
structure Config where
  remove_quotes : Bool := true
  normalize_dashes : Bool := true
  normalize_spaces : Bool := true
  remove_html_tags : Bool := true
  decode_html_entities : Bool := true
  remove_invisible : Bool := true
  preserve_newlines : Bool := false
  lowercase : Bool := false
  max_length : Option Nat := none
  allowed_chars : Option CharClass := none
  extra_remove : Str := []

/-- Stage 1 (source lines 224-228): generic entity decoding, then the
literal `HTML_ENTITIES` replacement loop. -/
def decodeStage (cfg : Config) (t : Str) : Str :=
  if cfg.decode_html_entities then applyEntities (htmlUnescape t) else t

/-- Stage 2 (source lines 231-236): `<br>`/`<p>`/`<li>` conversions, then
generic tag removal. -/
def tagStage (cfg : Config) (t : Str) : Str :=
  if cfg.remove_html_tags then subTags (subLi (subP (subBr t))) else t

/-- Stage 3 (source lines 239-240): delete `INVISIBLE_CHARS`. -/
def invisibleStage (cfg : Config) (t : Str) : Str :=
  if cfg.remove_invisible then t.filter (fun c => !(INVISIBLE_CHARS c)) else t

/-- Stage 4 (source lines 243-244): each `SPECIAL_SPACES` codepoint becomes
one ASCII space. -/
def spaceStage (cfg : Config) (t : Str) : Str :=
  if cfg.normalize_spaces then
    t.map (fun c => if SPECIAL_SPACES.contains c then ' ' else c)
  else t

/-- Stage 5 (source lines 247-249): the `DASHES` replacement loop. -/
def dashStage (cfg : Config) (t : Str) : Str :=
  if cfg.normalize_dashes then
    DASHES.foldl (fun t d => strReplace [d.1] [d.2] t) t
  else t

/-- Stage 6 (source lines 252-253): each `QUOTES` codepoint becomes one
ASCII space. -/
def quoteStage (cfg : Config) (t : Str) : Str :=
  if cfg.remove_quotes then
    t.map (fun c => if QUOTES.contains c then ' ' else c)
  else t

/-- Stage 7 (source lines 256-257): delete the `extra_remove`
codepoints. -/
def extraStage (cfg : Config) (t : Str) : Str :=
  if cfg.extra_remove ≠ [] then
    t.filter (fun c => !(cfg.extra_remove.contains c))
  else t

/-- Stage 8 (source lines 260-261): keep only codepoints matching the
compiled `allowed_chars` class. -/
def allowedStage (cfg : Config) (t : Str) : Str :=
  match cfg.allowed_chars with
  | some cls => t.filter (matchesClass cls)
  | none => t

/-- Stage 9 (source lines 264-274): whitespace handling in the two
sub-modes. -/
def whitespaceStage (cfg : Config) (t : Str) : Str :=
  if cfg.preserve_newlines then
    stripLines (multiNewlineSub (multiSpaceSub t))
  else
    multiSpaceSub (strReplace ['\r'] [' '] (strReplace ['\n'] [' '] t))

/-- Stage 10 (source lines 277-278): lowercase. -/
def lowerStage (cfg : Config) (t : Str) : Str :=
  if cfg.lowercase then t.map pyToLower else t

/-- Stages 1-11 of `clean`: everything before truncation. -/
def preTruncClean (cfg : Config) (s : Str) : Str :=
  pyStrip (lowerStage cfg (whitespaceStage cfg (allowedStage cfg (extraStage
    cfg (quoteStage cfg (dashStage cfg (spaceStage cfg (invisibleStage cfg
      (tagStage cfg (decodeStage cfg s))))))))))

/-- Stage 12 (source lines 284-285): when `max_length` is set (truthy) and
exceeded, cut to `max_length` codepoints, back off to before the last space
of the cut when one exists, and append `...`. -/
def truncStage (cfg : Config) (t : Str) : Str :=
  match cfg.max_length with
  | some m =>
    if m ≠ 0 ∧ m < t.length then
      rsplitBeforeLastSpace (t.take m) ++ ['.', '.', '.']
    else t
  | none => t

/-- `TextCleaner.clean` (source lines 203-287) on string input.  `None` and
non-string inputs are coerced before the pipeline and are outside this
model; the empty string short-circuits. -/
def clean (cfg : Config) (s : Str) : Str :=
  if s = [] then [] else truncStage cfg (preTruncClean cfg s)

/-- Python's `\w` for `str` patterns (letters, digits, underscore),
modelled on the ASCII range like the case maps. -/
def pyIsWordChar (c : Char) : Bool := c.isAlphanum || c = '_'

/-- `TextCleaner.clean_sku` (source lines 301-308): empty short-circuit,
`clean` under the instance configuration, delete every codepoint outside
`[\w\-.]`, uppercase. -/
def cleanSku (cfg : Config) (s : Str) : Str :=
  if s = [] then []
  else
    ((clean cfg s).filter
      (fun c => pyIsWordChar c || c = '-' || c = '.')).map pyToUpper

/-- `TextCleaner.clean_email` (source lines 336-343): empty short-circuit,
strip, lowercase, delete `INVISIBLE_CHARS`, delete `SPECIAL_SPACES`. -/
def cleanEmail (s : Str) : Str :=
  if s = [] then []
  else
    (((pyStrip s).map pyToLower).filter
        (fun c => !(INVISIBLE_CHARS c))).filter
      (fun c => !(SPECIAL_SPACES.contains c))

/-- `TextCleaner.truncate` (source lines 371-376). -/
def truncate (text : Str) (maxLength : Nat) (suffix : Str) : Str :=
  if text = [] ∨ text.length ≤ maxLength then text
  else rsplitBeforeLastSpace (text.take maxLength) ++ suffix

/-! ## Construction-time versus clean-time pattern compilation
(source lines 130-197 and 260-261)

`__init__` stores the options and calls `_compile_patterns`, which compiles
the quote, tag, space, newline, special-space and invisible-character
patterns — all built from class constants — and never touches
`allowed_chars`.  The pattern `[^` + `allowed_chars` + `]` is compiled by
`re.sub` inside `clean` itself (source line 261), so a malformed fragment
raises there, not in the constructor.  The model below reflects that: a raw
configuration holds the caller's fragment verbatim; construction compiles
only the fixed patterns (through the same class parser) and cannot consult
the fragment; the checked clean compiles the fragment on every call and
propagates its error. -/

/-- The characters Python's `re.escape` (3.7+) prefixes with a backslash. -/
def RE_SPECIAL : Str :=
  ['(', ')', '[', ']', '\x7b', '\x7d', '?', '*', '+', '-', '|', '^', '$',
   '\\', '.', '&', '~', '#', ' ', '\t', '\n', '\r', '\u000B', '\u000C']

/-- `re.escape` of one character. -/
def reEscapeChar (c : Char) : Str :=
  if RE_SPECIAL.contains c then ['\\', c] else [c]

/-- `re.escape` of a string. -/
def reEscape (s : Str) : Str := s.flatMap reEscapeChar

/-- Parser for a regex character-class body, covering the constructs the
source can put in one: literal characters, backslash escapes, and `a-b`
ranges (with `-` literal in the final position).  A trailing backslash and
a reversed range are the compile errors Python's `sre_parse` raises for
such bodies; bracket handling inside the caller-supplied fragment is beyond
this model. -/
def parseClassBody : Str → Except String CharClass
  | [] => Except.ok []
  | '\\' :: [] => Except.error "bad escape (end of pattern)"
  | '\\' :: c :: rest =>
    match parseClassBody rest with
    | Except.ok items => Except.ok (ClassItem.lit c :: items)
    | Except.error e => Except.error e
  | a :: '-' :: b :: rest =>
    if a.toNat ≤ b.toNat then
      match parseClassBody rest with
      | Except.ok items => Except.ok (ClassItem.range a b :: items)
      | Except.error e => Except.error e
    else Except.error "bad character range"
  | a :: rest =>
    match parseClassBody rest with
    | Except.ok items => Except.ok (ClassItem.lit a :: items)
    | Except.error e => Except.error e

/-- The members of `TextCleaner.INVISIBLE_CHARS` as the list the set
comprehension of source lines 113-124 produces. -/
def INVISIBLE_LIST : Str :=
  (((List.range 32).map Char.ofNat).filter
    (fun c => !(c = '\t' || c = '\n' || c = '\r'))) ++ INVISIBLE_EXTRA

/-- The constructor arguments of `TextCleaner.__init__`, with
`allowed_chars` held as the caller's raw pattern fragment. -/
structure RawConfig where
  remove_quotes : Bool := true
  normalize_dashes : Bool := true
  normalize_spaces : Bool := true
  remove_html_tags : Bool := true
  decode_html_entities : Bool := true
  remove_invisible : Bool := true
  preserve_newlines : Bool := false
  lowercase : Bool := false
  max_length : Option Nat := none
  allowed_chars : Option Str := none
  extra_remove : Str := []

/-- `TextCleaner._compile_patterns` (source lines 175-197): compile the
character-class patterns built from the class constants.  (The tag,
multi-space and multi-newline patterns are constant regex literals,
modelled by the scanners above; `allowed_chars` is not compiled here.) -/
def compilePatterns (_rc : RawConfig) :
    Except String (CharClass × CharClass × CharClass) :=
  match parseClassBody (reEscape QUOTES) with
  | Except.error e => Except.error e
  | Except.ok q =>
    match parseClassBody (SPECIAL_SPACES.flatMap reEscapeChar) with
    | Except.error e => Except.error e
    | Except.ok sp =>
      match parseClassBody (INVISIBLE_LIST.flatMap reEscapeChar) with
      | Except.error e => Except.error e
      | Except.ok inv => Except.ok (q, sp, inv)

/-- A constructed `TextCleaner` instance: the stored options plus the
precompiled patterns. -/
structure Cleaner where
  rc : RawConfig
  patterns : CharClass × CharClass × CharClass

/-- `TextCleaner.__init__`: store the options, then precompile. -/
def initCleaner (rc : RawConfig) : Except String Cleaner :=
  match compilePatterns rc with
  | Except.error e => Except.error e
  | Except.ok p => Except.ok ⟨rc, p⟩

/-- The pipeline configuration corresponding to stored options and a
compiled `allowed_chars` class. -/
def toConfig (rc : RawConfig) (allowed : Option CharClass) : Config :=
  { remove_quotes := rc.remove_quotes
    normalize_dashes := rc.normalize_dashes
    normalize_spaces := rc.normalize_spaces
    remove_html_tags := rc.remove_html_tags
    decode_html_entities := rc.decode_html_entities
    remove_invisible := rc.remove_invisible
    preserve_newlines := rc.preserve_newlines
    lowercase := rc.lowercase
    max_length := rc.max_length
    allowed_chars := allowed
    extra_remove := rc.extra_remove }

/-- `clean` with the clean-time compilation of the `allowed_chars` pattern
made explicit: a nonempty fragment is compiled on every call (source line
261 builds and compiles `[^...]` inside `clean`), and a malformed fragment
surfaces as an error here rather than at construction. -/
def cleanChecked (cl : Cleaner) (s : Str) : Except String Str :=
  match cl.rc.allowed_chars with
  | none => Except.ok (clean (toConfig cl.rc none) s)
  | some frag =>
    if frag = [] then Except.ok (clean (toConfig cl.rc none) s)
    else
      match parseClassBody frag with
      | Except.error e => Except.error e
      | Except.ok cls => Except.ok (clean (toConfig cl.rc (some cls)) s)

/-! ## Invariants of cleaned output, for the idempotence analysis -/

/-- No `<` is the start of a possible tag match: each `<` is either
immediately followed by `>` or has no `>` anywhere after it.  This is the
shape of every string after generic tag removal, and on such strings all
four tag substitutions are the identity. -/
def tagFree : Str → Prop
  | [] => True
  | c :: r => (c = '<' → r.head? = some '>' ∨ '>' ∉ r) ∧ tagFree r

/-- No tab, and no space directly followed by another space: the shape on
which the `[ \t]+` collapse is the identity. -/
def noTabDbl : Str → Prop
  | [] => True
  | c :: r => c ≠ '\t' ∧ (c = ' ' → r.head? ≠ some ' ') ∧ noTabDbl r

/-- What may follow a newline for the `\n\s*\n+` collapse to leave it
unchanged: nothing, a non-whitespace codepoint, or exactly one more
newline itself followed by nothing or a non-whitespace codepoint. -/
def nlNext (r : Str) : Prop :=
  match r with
  | [] => True
  | c :: r2 =>
    if c = '\n' then
      match r2 with
      | [] => True
      | d :: _ => ¬(pyIsSpace d = true)
    else ¬(pyIsSpace c = true)

/-- Every newline is followed as `nlNext` describes: the shape on which the
`\n\s*\n+` collapse is the identity. -/
def afterNlOk : Str → Prop
  | [] => True
  | c :: r => (c = '\n' → nlNext r) ∧ afterNlOk r

/-- The whitespace run after a newline contains no further newline — with
one more newline allowed directly adjacent.  This is the shape of the
`\n\s*\n+` collapse's output: what follows an emitted `\n\n` is
newline-free whitespace, and an uncollapsed single newline is followed by
newline-free whitespace. -/
def nlNextW (r : Str) : Prop :=
  match r with
  | '\n' :: r2 => '\n' ∉ r2.takeWhile pyIsSpace
  | _ => '\n' ∉ r.takeWhile pyIsSpace

/-- Every newline is followed as `nlNextW` describes. -/
def afterNlOkW : Str → Prop
  | [] => True
  | c :: r => (c = '\n' → nlNextW r) ∧ afterNlOkW r

/-- `'\n'.join(lines)`: the inverse of splitting on newlines, used to
reason about the per-line behaviour of the line-strip stage. -/
def joinNl : List Str → Str
  | [] => []
  | [l] => l
  | l :: ls => l ++ '\n' :: joinNl ls

end TextCleaner

namespace TextCleaner

/-! ## Empty-string lemmas for every stage -/

@[simp]
theorem htmlUnescape_nil : htmlUnescape [] = [] := rfl

@[simp]
theorem applyEntities_nil : applyEntities [] = [] := rfl

@[simp]
theorem strReplace_nil (p r : Str) : strReplace p r [] = [] := rfl

@[simp]
theorem subScan_nil (m : Str → Option Str) (rep : Str) :
    subScan m rep [] = [] := rfl

@[simp]
theorem multiSpaceSub_nil : multiSpaceSub [] = [] := rfl

@[simp]
theorem multiNewlineSub_nil : multiNewlineSub [] = [] := rfl

@[simp]
theorem stripLines_nil : stripLines [] = [] := rfl

@[simp]
theorem pyStrip_nil : pyStrip [] = [] := rfl

@[simp]
theorem decodeStage_nil (cfg : Config) : decodeStage cfg [] = [] := by
  unfold decodeStage
  split <;> rfl

@[simp]
theorem tagStage_nil (cfg : Config) : tagStage cfg [] = [] := by
  unfold tagStage
  split <;> rfl

@[simp]
theorem invisibleStage_nil (cfg : Config) : invisibleStage cfg [] = [] := by
  unfold invisibleStage
  split <;> rfl

@[simp]
theorem spaceStage_nil (cfg : Config) : spaceStage cfg [] = [] := by
  unfold spaceStage
  split <;> rfl

@[simp]
theorem dashStage_nil (cfg : Config) : dashStage cfg [] = [] := by
  unfold dashStage
  split <;> rfl

@[simp]
theorem quoteStage_nil (cfg : Config) : quoteStage cfg [] = [] := by
  unfold quoteStage
  split <;> rfl

@[simp]
theorem extraStage_nil (cfg : Config) : extraStage cfg [] = [] := by
  unfold extraStage
  split <;> rfl

@[simp]
theorem allowedStage_nil (cfg : Config) : allowedStage cfg [] = [] := by
  unfold allowedStage
  split <;> rfl

@[simp]
theorem whitespaceStage_nil (cfg : Config) : whitespaceStage cfg [] = [] := by
  unfold whitespaceStage
  split <;> rfl

@[simp]
theorem lowerStage_nil (cfg : Config) : lowerStage cfg [] = [] := by
  unfold lowerStage
  split <;> rfl

@[simp]
theorem preTruncClean_nil (cfg : Config) : preTruncClean cfg [] = [] := by
  simp [preTruncClean]

@[simp]
theorem clean_nil (cfg : Config) : clean cfg [] = [] := by
  simp [clean]

/-! ## Case-map lemmas -/

theorem char_toNat_ofNat {n : Nat} (h : n.isValidChar) :
    (Char.ofNat n).toNat = n := by
  unfold Char.ofNat
  rw [dif_pos h]
  rfl

theorem pyToLower_eq_self_of {c : Char}
    (h : ¬(65 ≤ c.toNat ∧ c.toNat ≤ 90)) : pyToLower c = c := by
  unfold pyToLower
  rw [if_neg h]

theorem pyToLower_toNat_of_upper {c : Char}
    (h : 65 ≤ c.toNat ∧ c.toNat ≤ 90) :
    (pyToLower c).toNat = c.toNat + 32 := by
  unfold pyToLower
  rw [if_pos h]
  exact char_toNat_ofNat (Or.inl (by omega))

theorem pyToLower_idem (c : Char) :
    pyToLower (pyToLower c) = pyToLower c := by
  by_cases h : 65 ≤ c.toNat ∧ c.toNat ≤ 90
  · apply pyToLower_eq_self_of
    rw [pyToLower_toNat_of_upper h]
    omega
  · rw [pyToLower_eq_self_of h, pyToLower_eq_self_of h]

/-! ## Generic list helpers -/

theorem map_eq_self_of_mem {f : Char → Char} {l : Str}
    (h : ∀ c ∈ l, f c = c) : l.map f = l := by
  induction l with
  | nil => rfl
  | cons c cs ih =>
    simp only [List.map_cons, h c (List.mem_cons_self c cs),
      ih (fun x hx => h x (List.mem_cons_of_mem _ hx))]

theorem mem_of_mem_pyStrip {c : Char} {l : Str} (h : c ∈ pyStrip l) :
    c ∈ l := by
  unfold pyStrip pyStripEnd pyStripStart at h
  have h1 := List.mem_reverse.mp h
  have h2 := List.dropWhile_sublist (l := (l.dropWhile pyIsSpace).reverse)
    (p := pyIsSpace)
  have h3 := h2.mem h1
  have h4 := List.mem_reverse.mp h3
  exact (List.dropWhile_sublist (l := l) (p := pyIsSpace)).mem h4

/-! ## Helper lemmas about the truncation primitive -/

/-- `beforeLastSpace` returns `none` exactly on space-free lists. -/
theorem beforeLastSpace_eq_none {l : Str} :
    beforeLastSpace l = none ↔ ' ' ∉ l := by
  induction l with
  | nil => simp [beforeLastSpace]
  | cons c cs ih =>
    cases h : beforeLastSpace cs with
    | some p =>
      simp only [beforeLastSpace, h]
      constructor
      · intro hx
        exact absurd hx (by simp)
      · intro hmem
        have hcs : ' ' ∉ cs := fun hc => hmem (List.mem_cons_of_mem _ hc)
        rw [ih.mpr hcs] at h
        exact absurd h (by simp)
    | none =>
      have hcs : ' ' ∉ cs := ih.mp h
      simp only [beforeLastSpace, h]
      by_cases hc : c = ' '
      · subst hc
        simp
      · simp only [if_neg hc]
        constructor
        · intro _ hmem
          rcases List.mem_cons.mp hmem with h1 | h1
          · exact hc h1.symm
          · exact hcs h1
        · intro _
          trivial

/-- When `beforeLastSpace` succeeds, it splits the list at its last
space. -/
theorem beforeLastSpace_spec {l p : Str} (h : beforeLastSpace l = some p) :
    ∃ q, l = p ++ ' ' :: q ∧ ' ' ∉ q := by
  induction l generalizing p with
  | nil => simp [beforeLastSpace] at h
  | cons c cs ih =>
    simp only [beforeLastSpace] at h
    cases hcs : beforeLastSpace cs with
    | some p' =>
      rw [hcs] at h
      obtain ⟨q, hq, hq'⟩ := ih hcs
      cases h
      exact ⟨q, by simp [hq], hq'⟩
    | none =>
      rw [hcs] at h
      by_cases hc : c = ' '
      · simp [hc] at h
        subst hc
        cases h
        exact ⟨cs, rfl, beforeLastSpace_eq_none.mp hcs⟩
      · simp [hc] at h

/-! ## Membership propagation through the stages -/

/-- A single-codepoint `str.replace` is a codepoint map. -/
theorem strReplace_single (a b : Char) (s : Str) :
    strReplace [a] [b] s = s.map (fun c => if c = a then b else c) := by
  have key : ∀ (f : Nat) (s : Str), s.length ≤ f →
      strReplaceF [a] [b] f s = s.map (fun c => if c = a then b else c) := by
    intro f
    induction f with
    | zero =>
      intro s hlen
      cases s with
      | nil => rfl
      | cons c cs => simp at hlen
    | succ f ih =>
      intro s hlen
      cases s with
      | nil => rfl
      | cons c cs =>
        simp only [strReplaceF]
        by_cases hc : c = a
        · have hpre : [a].isPrefixOf (c :: cs) = true := by
            simp [List.isPrefixOf, hc]
          rw [if_pos hpre]
          simp only [List.length_cons, List.length_nil, List.drop_succ_cons,
            List.drop_zero]
          simp only [List.map_cons, if_pos hc]
          rw [ih cs (by simp at hlen; omega)]
          rfl
        · have hpre : ¬([a].isPrefixOf (c :: cs) = true) := by
            simp [List.isPrefixOf]
            exact fun h => absurd h.symm hc
          rw [if_neg hpre]
          simp only [List.map_cons, if_neg hc]
          rw [ih cs (by simp at hlen; omega)]
  exact key s.length s le_rfl

theorem mem_multiSpaceSub {c : Char} {s : Str} (h : c ∈ multiSpaceSub s) :
    c ∈ s ∨ c = ' ' := by
  induction s with
  | nil => simp [multiSpaceSub] at h
  | cons a cs ih =>
    by_cases ha : isSpTab a
    · cases cs with
      | nil =>
        simp [multiSpaceSub, ha] at h
        exact Or.inr h
      | cons d ds =>
        by_cases hd : isSpTab d
        · rw [show multiSpaceSub (a :: d :: ds) = multiSpaceSub (d :: ds) by
            simp [multiSpaceSub, ha, hd]] at h
          rcases ih h with h1 | h1
          · exact Or.inl (List.mem_cons_of_mem _ h1)
          · exact Or.inr h1
        · rw [show multiSpaceSub (a :: d :: ds) = ' ' :: multiSpaceSub (d :: ds) by
            simp [multiSpaceSub, ha, hd]] at h
          rcases List.mem_cons.mp h with h1 | h1
          · exact Or.inr h1
          · rcases ih h1 with h2 | h2
            · exact Or.inl (List.mem_cons_of_mem _ h2)
            · exact Or.inr h2
    · rw [show multiSpaceSub (a :: cs) = a :: multiSpaceSub cs by
        cases cs <;> simp [multiSpaceSub, ha]] at h
      rcases List.mem_cons.mp h with h1 | h1
      · exact Or.inl (h1 ▸ List.mem_cons_self a cs)
      · rcases ih h1 with h2 | h2
        · exact Or.inl (List.mem_cons_of_mem _ h2)
        · exact Or.inr h2

theorem mem_multiNewlineF {c : Char} {f : Nat} {s : Str}
    (h : c ∈ multiNewlineF f s) : c ∈ s ∨ c = '\n' := by
  induction f generalizing s with
  | zero => exact Or.inl h
  | succ f ih =>
    cases s with
    | nil => simp [multiNewlineF] at h
    | cons a cs =>
      simp only [multiNewlineF] at h
      by_cases ha : a = '\n'
      · rw [if_pos ha] at h
        by_cases hrun : (nlRun cs).contains '\n'
        · rw [if_pos hrun] at h
          rcases List.mem_cons.mp h with h1 | h1
          · exact Or.inr h1
          rcases List.mem_cons.mp h1 with h2 | h2
          · exact Or.inr h2
          rcases ih h2 with h3 | h3
          · exact Or.inl (List.mem_cons_of_mem _ ((List.drop_sublist _ _).mem h3))
          · exact Or.inr h3
        · rw [if_neg hrun] at h
          rcases List.mem_cons.mp h with h1 | h1
          · exact Or.inr h1
          rcases ih h1 with h2 | h2
          · exact Or.inl (List.mem_cons_of_mem _ h2)
          · exact Or.inr h2
      · rw [if_neg ha] at h
        rcases List.mem_cons.mp h with h1 | h1
        · exact Or.inl (h1 ▸ List.mem_cons_self a cs)
        rcases ih h1 with h2 | h2
        · exact Or.inl (List.mem_cons_of_mem _ h2)
        · exact Or.inr h2

theorem mem_multiNewlineSub {c : Char} {s : Str}
    (h : c ∈ multiNewlineSub s) : c ∈ s ∨ c = '\n' :=
  mem_multiNewlineF h

theorem mem_stripLinesF {c : Char} {f : Nat} {s : Str}
    (h : c ∈ stripLinesF f s) : c ∈ s ∨ c = '\n' := by
  induction f generalizing s with
  | zero => exact Or.inl h
  | succ f ih =>
    simp only [stripLinesF] at h
    split at h
    next r heq =>
      simp only [List.mem_append, List.mem_cons] at h
      rcases h with h1 | h1 | h1
      · exact Or.inl ((List.takeWhile_sublist _).mem (mem_of_mem_pyStrip h1))
      · exact Or.inr h1
      · rcases ih h1 with h2 | h2
        · have h3 : List.Sublist ('\n' :: r) s :=
            heq ▸ List.dropWhile_sublist _
          have h4 : List.Sublist r s :=
            (List.sublist_cons_self '\n' r).trans h3
          exact Or.inl (h4.mem h2)
        · exact Or.inr h2
    next =>
      exact Or.inl ((List.takeWhile_sublist _).mem (mem_of_mem_pyStrip h))

theorem mem_stripLines {c : Char} {s : Str} (h : c ∈ stripLines s) :
    c ∈ s ∨ c = '\n' :=
  mem_stripLinesF h

theorem mem_strReplace_single {a b c : Char} {t : Str}
    (h : c ∈ strReplace [a] [b] t) : c = b ∨ (c ∈ t ∧ c ≠ a) := by
  rw [strReplace_single] at h
  obtain ⟨d, hd, hde⟩ := List.mem_map.mp h
  by_cases hda : d = a
  · rw [if_pos hda] at hde
    exact Or.inl hde.symm
  · rw [if_neg hda] at hde
    subst hde
    exact Or.inr ⟨hd, hda⟩

theorem mem_rsplitBeforeLastSpace {c : Char} {l : Str}
    (h : c ∈ rsplitBeforeLastSpace l) : c ∈ l := by
  unfold rsplitBeforeLastSpace at h
  cases hb : beforeLastSpace l with
  | some p =>
    rw [hb] at h
    obtain ⟨q, hq, -⟩ := beforeLastSpace_spec hb
    rw [hq]
    exact List.mem_append_left _ h
  | none =>
    rw [hb] at h
    exact h

theorem mem_truncStage {c : Char} {cfg : Config} {t : Str}
    (h : c ∈ truncStage cfg t) : c ∈ t ∨ c = '.' := by
  unfold truncStage at h
  cases hm : cfg.max_length with
  | none =>
    rw [hm] at h
    exact Or.inl h
  | some m =>
    rw [hm] at h
    have h' : c ∈ (if m ≠ 0 ∧ m < t.length
        then rsplitBeforeLastSpace (t.take m) ++ ['.', '.', '.'] else t) := h
    by_cases hcond : m ≠ 0 ∧ m < t.length
    · rw [if_pos hcond] at h'
      rcases List.mem_append.mp h' with h1 | h1
      · exact Or.inl ((List.take_sublist _ _).mem (mem_rsplitBeforeLastSpace h1))
      · simp at h1
        exact Or.inr h1
    · rw [if_neg hcond] at h'
      exact Or.inl h'

/-- What `pyToLower` can produce: either its input unchanged, or an ASCII
lowercase letter. -/
theorem pyToLower_target {d c : Char} (h : pyToLower d = c) :
    d = c ∨ (97 ≤ c.toNat ∧ c.toNat ≤ 122) := by
  by_cases hd : 65 ≤ d.toNat ∧ d.toNat ≤ 90
  · right
    have := pyToLower_toNat_of_upper hd
    rw [h] at this
    omega
  · left
    rw [pyToLower_eq_self_of hd] at h
    exact h

theorem mem_lowerStage {c : Char} {cfg : Config} {t : Str}
    (h : c ∈ lowerStage cfg t) :
    c ∈ t ∨ ∃ d ∈ t, pyToLower d = c := by
  unfold lowerStage at h
  split at h
  · obtain ⟨d, hd, hde⟩ := List.mem_map.mp h
    exact Or.inr ⟨d, hd, hde⟩
  · exact Or.inl h

theorem mem_whitespaceStage {c : Char} {cfg : Config} {t : Str}
    (h : c ∈ whitespaceStage cfg t) : c ∈ t ∨ c = ' ' ∨ c = '\n' := by
  unfold whitespaceStage at h
  split at h
  · rcases mem_stripLines h with h1 | h1
    · rcases mem_multiNewlineSub h1 with h2 | h2
      · rcases mem_multiSpaceSub h2 with h3 | h3
        · exact Or.inl h3
        · exact Or.inr (Or.inl h3)
      · exact Or.inr (Or.inr h2)
    · exact Or.inr (Or.inr h1)
  · rcases mem_multiSpaceSub h with h1 | h1
    · rcases mem_strReplace_single h1 with h2 | h2
      · exact Or.inr (Or.inl h2)
      · rcases mem_strReplace_single h2.1 with h3 | h3
        · exact Or.inr (Or.inl h3)
        · exact Or.inl h3.1
    · exact Or.inr (Or.inl h1)

/-! ## Codepoint range facts about the tables -/

theorem special_spaces_ge : ∀ c ∈ SPECIAL_SPACES, 0xA0 ≤ c.toNat := by
  decide

theorem invisible_extra_ge : ∀ c ∈ INVISIBLE_EXTRA, 0x200C ≤ c.toNat := by
  decide

theorem dash_keys_ge : ∀ d ∈ DASHES, 0x2010 ≤ d.1.toNat := by decide

theorem quotes_not_ascii_lower : ∀ q ∈ QUOTES,
    ¬(97 ≤ q.toNat ∧ q.toNat ≤ 122) := by decide

theorem invisible_true_toNat {c : Char} (h : INVISIBLE_CHARS c = true) :
    c.toNat < 32 ∨ 0x200C ≤ c.toNat := by
  unfold INVISIBLE_CHARS at h
  rcases Bool.or_eq_true_iff.mp h with h1 | h1
  · simp only [Bool.and_eq_true, decide_eq_true_eq] at h1
    exact Or.inl h1.1
  · exact Or.inr (invisible_extra_ge c (by simpa using h1))

/-! ## Per-stage membership and output shape -/

theorem mem_spaceStage {c : Char} {cfg : Config} {t : Str}
    (h : c ∈ spaceStage cfg t) : c ∈ t ∨ c = ' ' := by
  unfold spaceStage at h
  split at h
  · obtain ⟨d, hd, hde⟩ := List.mem_map.mp h
    by_cases hds : SPECIAL_SPACES.contains d
    · rw [if_pos hds] at hde
      exact Or.inr hde.symm
    · rw [if_neg hds] at hde
      exact Or.inl (hde ▸ hd)
  · exact Or.inl h

theorem mem_quoteStage {c : Char} {cfg : Config} {t : Str}
    (h : c ∈ quoteStage cfg t) : c ∈ t ∨ c = ' ' := by
  unfold quoteStage at h
  split at h
  · obtain ⟨d, hd, hde⟩ := List.mem_map.mp h
    by_cases hds : QUOTES.contains d
    · rw [if_pos hds] at hde
      exact Or.inr hde.symm
    · rw [if_neg hds] at hde
      exact Or.inl (hde ▸ hd)
  · exact Or.inl h

theorem mem_foldRep {l : List (Char × Char)} {v : Char}
    (hv : ∀ d ∈ l, d.2 = v) {t0 : Str} {c : Char}
    (h : c ∈ l.foldl (fun t d => strReplace [d.1] [d.2] t) t0) :
    c = v ∨ c ∈ t0 := by
  induction l generalizing t0 with
  | nil => exact Or.inr h
  | cons d ds ih =>
    rw [List.foldl_cons] at h
    rcases ih (fun e he => hv e (List.mem_cons_of_mem _ he)) h with h1 | h1
    · exact Or.inl h1
    · rcases mem_strReplace_single h1 with h2 | h2
      · exact Or.inl (h2.trans (hv d (List.mem_cons_self _ _)))
      · exact Or.inr h2.1

theorem mem_foldRep_keys {l : List (Char × Char)} {v : Char}
    (hv : ∀ d ∈ l, d.2 = v) (hnk : ∀ d ∈ l, d.1 ≠ v) {t0 : Str} {c : Char}
    (h : c ∈ l.foldl (fun t d => strReplace [d.1] [d.2] t) t0) :
    c = v ∨ (c ∈ t0 ∧ ∀ d ∈ l, c ≠ d.1) := by
  induction l generalizing t0 with
  | nil => exact Or.inr ⟨h, by simp⟩
  | cons d ds ih =>
    rw [List.foldl_cons] at h
    rcases ih (fun e he => hv e (List.mem_cons_of_mem _ he))
        (fun e he => hnk e (List.mem_cons_of_mem _ he)) h with h1 | h1
    · exact Or.inl h1
    · rcases mem_strReplace_single h1.1 with h2 | h2
      · exact Or.inl (h2.trans (hv d (List.mem_cons_self _ _)))
      · refine Or.inr ⟨h2.1, ?_⟩
        intro e he
        rcases List.mem_cons.mp he with he1 | he1
        · exact he1 ▸ h2.2
        · exact h1.2 e he1

theorem mem_dashStage {c : Char} {cfg : Config} {t : Str}
    (h : c ∈ dashStage cfg t) : c ∈ t ∨ c = '-' := by
  unfold dashStage at h
  split at h
  · rcases @mem_foldRep DASHES '-' (by decide) t c h with h1 | h1
    · exact Or.inr h1
    · exact Or.inl h1
  · exact Or.inl h

theorem invisibleStage_out {cfg : Config} {t : Str}
    (hf : cfg.remove_invisible = true) :
    ∀ c ∈ invisibleStage cfg t, INVISIBLE_CHARS c = false := by
  intro c hc
  unfold invisibleStage at hc
  rw [hf] at hc
  simp only [if_true] at hc
  have h2 := List.of_mem_filter hc
  simpa using h2

theorem spaceStage_out {cfg : Config} {t : Str}
    (hf : cfg.normalize_spaces = true) :
    ∀ c ∈ spaceStage cfg t, SPECIAL_SPACES.contains c = false := by
  intro c hc
  unfold spaceStage at hc
  rw [hf] at hc
  simp only [if_true] at hc
  obtain ⟨d, -, hde⟩ := List.mem_map.mp hc
  by_cases hds : SPECIAL_SPACES.contains d
  · rw [if_pos hds] at hde
    subst hde
    decide
  · rw [if_neg hds] at hde
    subst hde
    exact Bool.eq_false_iff.mpr hds

theorem dashStage_out {cfg : Config} {t : Str}
    (hf : cfg.normalize_dashes = true) :
    ∀ c ∈ dashStage cfg t, ∀ d ∈ DASHES, c ≠ d.1 := by
  intro c hc
  unfold dashStage at hc
  rw [hf] at hc
  simp only [if_true] at hc
  rcases @mem_foldRep_keys DASHES '-' (by decide) (by decide) t c hc with h1 | h1
  · subst h1
    decide
  · exact h1.2

theorem quoteStage_out {cfg : Config} {t : Str}
    (hf : cfg.remove_quotes = true) :
    ∀ c ∈ quoteStage cfg t, QUOTES.contains c = false := by
  intro c hc
  unfold quoteStage at hc
  rw [hf] at hc
  simp only [if_true] at hc
  obtain ⟨d, -, hde⟩ := List.mem_map.mp hc
  by_cases hds : QUOTES.contains d
  · rw [if_pos hds] at hde
    subst hde
    decide
  · rw [if_neg hds] at hde
    subst hde
    exact Bool.eq_false_iff.mpr hds

theorem lowerStage_out {cfg : Config} {t : Str}
    (hf : cfg.lowercase = true) :
    ∀ c ∈ lowerStage cfg t, pyToLower c = c := by
  intro c hc
  unfold lowerStage at hc
  rw [hf] at hc
  simp only [if_true] at hc
  obtain ⟨d, -, hde⟩ := List.mem_map.mp hc
  rw [← hde, pyToLower_idem]

/-! ## Stage fixed points from invariants -/

theorem decodeStage_off {cfg : Config} {t : Str}
    (h : cfg.decode_html_entities = false) : decodeStage cfg t = t := by
  unfold decodeStage
  rw [h]
  rfl

theorem extraStage_empty {cfg : Config} {t : Str}
    (h : cfg.extra_remove = []) : extraStage cfg t = t := by
  unfold extraStage
  rw [h]
  simp

theorem allowedStage_none {cfg : Config} {t : Str}
    (h : cfg.allowed_chars = none) : allowedStage cfg t = t := by
  unfold allowedStage
  rw [h]

theorem truncStage_none {cfg : Config} {t : Str}
    (h : cfg.max_length = none) : truncStage cfg t = t := by
  unfold truncStage
  rw [h]

theorem invisibleStage_fix {cfg : Config} {y : Str}
    (h : ∀ c ∈ y, INVISIBLE_CHARS c = false) : invisibleStage cfg y = y := by
  unfold invisibleStage
  split
  · exact List.filter_eq_self.mpr (fun c hc => by
      rw [h c hc]
      rfl)
  · rfl

theorem spaceStage_fix {cfg : Config} {y : Str}
    (h : ∀ c ∈ y, SPECIAL_SPACES.contains c = false) :
    spaceStage cfg y = y := by
  unfold spaceStage
  split
  · exact map_eq_self_of_mem (fun c hc =>
      if_neg (by rw [h c hc]; exact Bool.false_ne_true))
  · rfl

theorem quoteStage_fix {cfg : Config} {y : Str}
    (h : ∀ c ∈ y, QUOTES.contains c = false) : quoteStage cfg y = y := by
  unfold quoteStage
  split
  · exact map_eq_self_of_mem (fun c hc =>
      if_neg (by rw [h c hc]; exact Bool.false_ne_true))
  · rfl

theorem strReplace_single_fix {a b : Char} {y : Str}
    (h : ∀ c ∈ y, c ≠ a) : strReplace [a] [b] y = y := by
  rw [strReplace_single]
  exact map_eq_self_of_mem (fun c hc => if_neg (h c hc))

theorem foldRep_fix {l : List (Char × Char)} {y : Str}
    (h : ∀ d ∈ l, ∀ c ∈ y, c ≠ d.1) :
    l.foldl (fun t d => strReplace [d.1] [d.2] t) y = y := by
  induction l with
  | nil => rfl
  | cons d ds ih =>
    rw [List.foldl_cons,
      strReplace_single_fix (h d (List.mem_cons_self _ _))]
    exact ih (fun e he => h e (List.mem_cons_of_mem _ he))

theorem dashStage_fix {cfg : Config} {y : Str}
    (h : ∀ c ∈ y, ∀ d ∈ DASHES, c ≠ d.1) : dashStage cfg y = y := by
  unfold dashStage
  split
  · exact foldRep_fix (fun d hd c hc => h c hc d hd)
  · rfl

theorem lowerStage_fix {cfg : Config} {y : Str}
    (h : ∀ c ∈ y, pyToLower c = c) : lowerStage cfg y = y := by
  unfold lowerStage
  split
  · exact map_eq_self_of_mem h
  · rfl

/-! ## The space/tab collapse: output shape and fixed points -/

theorem noTabDbl_msp (s : Str) : noTabDbl (multiSpaceSub s) := by
  induction s with
  | nil => trivial
  | cons c cs ih =>
    by_cases hc : isSpTab c
    · cases cs with
      | nil =>
        simp only [multiSpaceSub, hc, if_true]
        exact ⟨by decide, fun _ => by simp, trivial⟩
      | cons d ds =>
        by_cases hd : isSpTab d
        · rw [show multiSpaceSub (c :: d :: ds) = multiSpaceSub (d :: ds) by
            simp [multiSpaceSub, hc, hd]]
          exact ih
        · rw [show multiSpaceSub (c :: d :: ds)
              = ' ' :: multiSpaceSub (d :: ds) by
            simp [multiSpaceSub, hc, hd]]
          refine ⟨by decide, fun _ => ?_, ih⟩
          rw [show multiSpaceSub (d :: ds) = d :: multiSpaceSub ds by
            cases ds <;> simp [multiSpaceSub, hd]]
          simp only [List.head?_cons]
          intro he
          apply hd
          rw [Option.some_inj.mp he]
          decide
    · rw [show multiSpaceSub (c :: cs) = c :: multiSpaceSub cs by
        cases cs <;> simp [multiSpaceSub, hc]]
      refine ⟨fun ht => hc (by rw [ht]; decide), fun hsp => ?_, ih⟩
      exact absurd (by rw [hsp]; decide) hc

theorem multiSpaceSub_fix {y : Str} (h : noTabDbl y) :
    multiSpaceSub y = y := by
  induction y with
  | nil => rfl
  | cons c cs ih =>
    obtain ⟨hct, hcs, hrest⟩ := h
    by_cases hc : isSpTab c
    · have hcsp : c = ' ' := by
        rcases Bool.or_eq_true_iff.mp hc with h1 | h1
        · exact of_decide_eq_true h1
        · exact absurd (of_decide_eq_true h1) hct
      cases cs with
      | nil =>
        simp only [multiSpaceSub, hc, if_true]
        rw [hcsp]
      | cons d ds =>
        have hd : ¬isSpTab d := by
          intro hd
          rcases Bool.or_eq_true_iff.mp hd with h1 | h1
          · exact hcs hcsp (by rw [List.head?_cons, of_decide_eq_true h1])
          · exact hrest.1 (of_decide_eq_true h1)
        rw [show multiSpaceSub (c :: d :: ds)
            = ' ' :: multiSpaceSub (d :: ds) by
          simp [multiSpaceSub, hc, hd]]
        rw [ih hrest, hcsp]
    · rw [show multiSpaceSub (c :: cs) = c :: multiSpaceSub cs by
        cases cs <;> simp [multiSpaceSub, hc]]
      rw [ih hrest]

theorem noTabDbl_append_right {a b : Str} (h : noTabDbl (a ++ b)) :
    noTabDbl b := by
  induction a with
  | nil => exact h
  | cons c a' ih => exact ih h.2.2

theorem noTabDbl_of_eq_append {l : Str} (h : noTabDbl l) {l' t : Str}
    (he : l' ++ t = l) : noTabDbl l' := by
  induction l' generalizing l with
  | nil => trivial
  | cons c r' ih =>
    subst he
    obtain ⟨h1, h2, h3⟩ := h
    refine ⟨h1, fun hsp => ?_, ih h3 rfl⟩
    cases r' with
    | nil => simp
    | cons d ds =>
      simp only [List.cons_append, List.head?_cons] at h2 ⊢
      exact h2 hsp

theorem noTabDbl_map {f : Char → Char}
    (hsp : ∀ c, f c = ' ' → c = ' ') (htab : ∀ c, f c = '\t' → c = '\t')
    {l : Str} (h : noTabDbl l) : noTabDbl (l.map f) := by
  induction l with
  | nil => trivial
  | cons c r ih =>
    obtain ⟨h1, h2, h3⟩ := h
    refine ⟨fun ht => h1 (htab c ht), fun hf => ?_, ih h3⟩
    have hc : c = ' ' := hsp c hf
    cases r with
    | nil => simp
    | cons d ds =>
      simp only [List.map_cons, List.head?_cons, ne_eq, Option.some_inj]
      intro hd
      exact h2 hc (by rw [List.head?_cons, hsp d hd])

theorem noTabDbl_dropWhile {p : Char → Bool} {l : Str} (h : noTabDbl l) :
    noTabDbl (l.dropWhile p) :=
  noTabDbl_append_right (a := l.takeWhile p)
    (by rw [List.takeWhile_append_dropWhile]; exact h)

theorem pyStripEnd_append (l : Str) :
    pyStripEnd l ++ (l.reverse.takeWhile pyIsSpace).reverse = l := by
  unfold pyStripEnd
  rw [← List.reverse_append, ← List.takeWhile_append_dropWhile
    (p := pyIsSpace) (l := l.reverse)]
  simp

theorem noTabDbl_pyStripEnd {l : Str} (h : noTabDbl l) :
    noTabDbl (pyStripEnd l) :=
  noTabDbl_of_eq_append h (pyStripEnd_append l)

theorem noTabDbl_pyStrip {l : Str} (h : noTabDbl l) :
    noTabDbl (pyStrip l) :=
  noTabDbl_pyStripEnd (noTabDbl_dropWhile h)

/-! ## Strip idempotence -/

theorem dropWhile_dropWhile (p : Char → Bool) (l : Str) :
    (l.dropWhile p).dropWhile p = l.dropWhile p := by
  cases h : l.dropWhile p with
  | nil => rfl
  | cons c r =>
    have hc : p c = false := by
      have := List.head?_dropWhile_not p l
      rw [h] at this
      simpa using this
    rw [List.dropWhile_cons_of_neg (by rw [hc]; exact Bool.false_ne_true)]

theorem pyStripEnd_idem (l : Str) :
    pyStripEnd (pyStripEnd l) = pyStripEnd l := by
  unfold pyStripEnd
  rw [List.reverse_reverse, dropWhile_dropWhile]

theorem pyStripStart_of_fixed {w : Str} (h : w.dropWhile pyIsSpace = w) :
    (pyStripEnd w).dropWhile pyIsSpace = pyStripEnd w := by
  cases he : pyStripEnd w with
  | nil => rfl
  | cons c r =>
    have hw : ∃ t, (c :: r) ++ t = w := ⟨_, he ▸ pyStripEnd_append w⟩
    obtain ⟨t, ht⟩ := hw
    have hc : pyIsSpace c = false := by
      by_contra hc
      rw [← ht, List.cons_append] at h
      rw [List.dropWhile_cons_of_pos (by
        revert hc
        cases pyIsSpace c <;> simp)] at h
      have hlen := congrArg List.length h
      have hle : ((r ++ t).dropWhile pyIsSpace).length ≤ (r ++ t).length :=
        (List.dropWhile_sublist _).length_le
      simp at hlen hle
      omega
    rw [List.dropWhile_cons_of_neg (by rw [hc]; exact Bool.false_ne_true)]

theorem pyStrip_idem (l : Str) : pyStrip (pyStrip l) = pyStrip l := by
  unfold pyStrip pyStripStart
  rw [pyStripStart_of_fixed (dropWhile_dropWhile pyIsSpace l),
    pyStripEnd_idem]

/-! ## Tag matcher structure -/

theorem matchBr_spec {l r : Str} (h : matchBr l = some r) :
    ∃ cs, l = '<' :: cs ∧ cs.head? ≠ some '>' ∧ '>' ∈ cs ∧
      (∀ x ∈ r, x ∈ cs) ∧ r.length < cs.length := by
  unfold matchBr at h
  split at h
  next b rr rest =>
    split at h
    next hb =>
      have hgt : '>' ∈ rest.dropWhile pyIsSpace ∧
          (∀ x ∈ r, x ∈ rest.dropWhile pyIsSpace) ∧
          r.length < (rest.dropWhile pyIsSpace).length := by
        split at h
        next t heq =>
          cases h
          rw [heq]
          exact ⟨by simp, fun x hx => by simp [hx],
            by simp only [List.length_cons]; omega⟩
        next t heq =>
          cases h
          rw [heq]
          exact ⟨by simp, fun x hx => by simp [hx],
            by simp only [List.length_cons]; omega⟩
        next => exact absurd h (by simp)
      have hsub : List.Sublist (rest.dropWhile pyIsSpace) rest :=
        List.dropWhile_sublist _
      refine ⟨b :: rr :: rest, rfl, ?_, ?_, ?_, ?_⟩
      · simp only [List.head?_cons, ne_eq, Option.some_inj]
        intro hbgt
        obtain ⟨hb1, -⟩ := Bool.and_eq_true_iff.mp hb
        rcases Bool.or_eq_true_iff.mp hb1 with h2 | h2 <;>
          exact absurd (of_decide_eq_true h2) (by rw [hbgt]; decide)
      · exact List.mem_cons_of_mem _ (List.mem_cons_of_mem _
          (hsub.mem hgt.1))
      · intro x hx
        exact List.mem_cons_of_mem _ (List.mem_cons_of_mem _
          (hsub.mem (hgt.2.1 x hx)))
      · have := hsub.length_le
        simp only [List.length_cons]
        omega
    next => exact absurd h (by simp)
  next => exact absurd h (by simp)

theorem matchPTail_spec {l r : Str} (h : matchPTail l = some r) :
    ∃ p rest, l = p :: rest ∧ p ≠ '>' ∧ '>' ∈ rest ∧
      (∀ x ∈ r, x ∈ rest) ∧ r.length < l.length := by
  unfold matchPTail at h
  split at h
  next p rest =>
    split at h
    next hp =>
      have hgt : '>' ∈ rest.dropWhile pyIsSpace ∧
          (∀ x ∈ r, x ∈ rest.dropWhile pyIsSpace) ∧
          r.length < (rest.dropWhile pyIsSpace).length := by
        split at h
        next t heq =>
          cases h
          rw [heq]
          exact ⟨by simp, fun x hx => by simp [hx],
            by simp only [List.length_cons]; omega⟩
        next t heq =>
          cases h
          rw [heq]
          exact ⟨by simp, fun x hx => by simp [hx],
            by simp only [List.length_cons]; omega⟩
        next => exact absurd h (by simp)
      have hsub : List.Sublist (rest.dropWhile pyIsSpace) rest :=
        List.dropWhile_sublist _
      refine ⟨p, rest, rfl, ?_, hsub.mem hgt.1,
        fun x hx => hsub.mem (hgt.2.1 x hx), ?_⟩
      · intro hpe
        rcases Bool.or_eq_true_iff.mp hp with h1 | h1 <;>
          exact absurd (of_decide_eq_true h1) (by rw [hpe]; decide)
      · have := hsub.length_le
        simp only [List.length_cons]
        omega
    next => exact absurd h (by simp)
  next => exact absurd h (by simp)

theorem matchP_spec {l r : Str} (h : matchP l = some r) :
    ∃ cs, l = '<' :: cs ∧ cs.head? ≠ some '>' ∧ '>' ∈ cs ∧
      (∀ x ∈ r, x ∈ cs) ∧ r.length < cs.length := by
  unfold matchP at h
  split at h
  next tail =>
    obtain ⟨p, rest, he, hp, hgt, hmem, hlen⟩ := matchPTail_spec h
    refine ⟨'/' :: tail, rfl, by simp, ?_, ?_, ?_⟩
    · rw [he]
      exact List.mem_cons_of_mem _ (List.mem_cons_of_mem _ hgt)
    · intro x hx
      rw [he]
      exact List.mem_cons_of_mem _ (List.mem_cons_of_mem _ (hmem x hx))
    · rw [he] at hlen ⊢
      simp only [List.length_cons] at hlen ⊢
      omega
  next tail hne =>
    obtain ⟨p, rest, he, hp, hgt, hmem, hlen⟩ := matchPTail_spec h
    refine ⟨tail, rfl, ?_, ?_, ?_, ?_⟩
    · rw [he]
      simp only [List.head?_cons, ne_eq, Option.some_inj]
      exact hp
    · rw [he]
      exact List.mem_cons_of_mem _ hgt
    · intro x hx
      rw [he]
      exact List.mem_cons_of_mem _ (hmem x hx)
    · rw [he] at hlen ⊢
      simp only [List.length_cons] at hlen ⊢
      omega
  next => exact absurd h (by simp)

theorem matchLi_spec {l r : Str} (h : matchLi l = some r) :
    ∃ cs, l = '<' :: cs ∧ cs.head? ≠ some '>' ∧ '>' ∈ cs ∧
      (∀ x ∈ r, x ∈ cs) ∧ r.length < cs.length := by
  unfold matchLi at h
  split at h
  next li ii rest =>
    split at h
    next hli =>
      have hgt : '>' ∈ rest.dropWhile (fun c => c ≠ '>') ∧
          (∀ x ∈ r, x ∈ rest.dropWhile (fun c => c ≠ '>')) ∧
          r.length < (rest.dropWhile (fun c => c ≠ '>')).length := by
        split at h
        next t heq =>
          cases h
          rw [heq]
          exact ⟨by simp, fun x hx => by simp [hx], by simp⟩
        next => exact absurd h (by simp)
      have hsub : List.Sublist (rest.dropWhile (fun c => c ≠ '>')) rest :=
        List.dropWhile_sublist _
      refine ⟨li :: ii :: rest, rfl, ?_, ?_, ?_, ?_⟩
      · simp only [List.head?_cons, ne_eq, Option.some_inj]
        intro hbgt
        rcases Bool.or_eq_true_iff.mp (Bool.and_eq_true_iff.mp hli).1
            with h1 | h1 <;>
          exact absurd (of_decide_eq_true h1) (by rw [hbgt]; decide)
      · exact List.mem_cons_of_mem _ (List.mem_cons_of_mem _
          (hsub.mem hgt.1))
      · intro x hx
        exact List.mem_cons_of_mem _ (List.mem_cons_of_mem _
          (hsub.mem (hgt.2.1 x hx)))
      · have := hsub.length_le
        simp only [List.length_cons]
        omega
    next => exact absurd h (by simp)
  next => exact absurd h (by simp)

theorem matchTag_spec {l r : Str} (h : matchTag l = some r) :
    ∃ cs, l = '<' :: cs ∧ cs.head? ≠ some '>' ∧ '>' ∈ cs ∧
      (∀ x ∈ r, x ∈ cs) ∧ r.length < cs.length := by
  unfold matchTag at h
  split at h
  next c2 rest =>
    split at h
    next => exact absurd h (by simp)
    next hc2 =>
      have hgt : '>' ∈ rest.dropWhile (fun x => x ≠ '>') ∧
          (∀ x ∈ r, x ∈ rest.dropWhile (fun x => x ≠ '>')) ∧
          r.length < (rest.dropWhile (fun x => x ≠ '>')).length := by
        split at h
        next t heq =>
          cases h
          rw [heq]
          exact ⟨by simp, fun x hx => by simp [hx], by simp⟩
        next => exact absurd h (by simp)
      have hsub : List.Sublist (rest.dropWhile (fun x => x ≠ '>')) rest :=
        List.dropWhile_sublist _
      refine ⟨c2 :: rest, rfl, ?_, ?_, ?_, ?_⟩
      · simp only [List.head?_cons, ne_eq, Option.some_inj]
        exact hc2
      · exact List.mem_cons_of_mem _ (hsub.mem hgt.1)
      · intro x hx
        exact List.mem_cons_of_mem _ (hsub.mem (hgt.2.1 x hx))
      · have := hsub.length_le
        simp only [List.length_cons]
        omega
  next => exact absurd h (by simp)

/-- A matcher whose successful matches have the tag shape returns `none` at
every position of a `tagFree` string. -/
theorem matcher_none_of_tagFree
    {m : Str → Option Str}
    (hspec : ∀ l r, m l = some r → ∃ cs, l = '<' :: cs ∧
      cs.head? ≠ some '>' ∧ '>' ∈ cs ∧
      (∀ x ∈ r, x ∈ cs) ∧ r.length < cs.length)
    {c : Char} {cs : Str}
    (hcond : c = '<' → cs.head? = some '>' ∨ '>' ∉ cs) :
    m (c :: cs) = none := by
  cases hm : m (c :: cs) with
  | none => rfl
  | some r =>
    obtain ⟨cs', he, hhead, hgt, -, -⟩ := hspec _ _ hm
    obtain ⟨hc, hcs⟩ := List.cons.injEq .. ▸ he
    subst hcs
    rcases hcond hc with h1 | h1
    · exact absurd h1 hhead
    · exact absurd hgt h1

/-! ## The scanners on tagFree strings -/

theorem subF_id {m : Str → Option Str} {rep : Str}
    (hnone : ∀ c cs, (c = '<' → cs.head? = some '>' ∨ '>' ∉ cs) →
      m (c :: cs) = none)
    {s : Str} (hs : tagFree s) : ∀ f, subF m rep f s = s := by
  induction s with
  | nil => intro f; cases f <;> rfl
  | cons c cs ih =>
    intro f
    cases f with
    | zero => rfl
    | succ f =>
      simp only [subF, hnone c cs hs.1]
      rw [ih hs.2 f]

theorem mem_subF {m : Str → Option Str} {rep : Str}
    (hspec : ∀ l r, m l = some r → ∃ cs, l = '<' :: cs ∧
      cs.head? ≠ some '>' ∧ '>' ∈ cs ∧
      (∀ x ∈ r, x ∈ cs) ∧ r.length < cs.length)
    {x : Char} {f : Nat} {s : Str} (h : x ∈ subF m rep f s) :
    x ∈ s ∨ x ∈ rep := by
  induction f generalizing s with
  | zero => exact Or.inl h
  | succ f ih =>
    cases s with
    | nil => simp [subF] at h
    | cons c cs =>
      simp only [subF] at h
      cases hm : m (c :: cs) with
      | some rest =>
        rw [hm] at h
        rcases List.mem_append.mp h with h1 | h1
        · exact Or.inr h1
        · rcases ih h1 with h2 | h2
          · obtain ⟨cs', he, -, -, hmem, -⟩ := hspec _ _ hm
            obtain ⟨-, hcs⟩ := List.cons.injEq .. ▸ he
            subst hcs
            exact Or.inl (List.mem_cons_of_mem _ (hmem x h2))
          · exact Or.inr h2
      | none =>
        rw [hm] at h
        rcases List.mem_cons.mp h with h1 | h1
        · exact Or.inl (h1 ▸ List.mem_cons_self _ _)
        · rcases ih h1 with h2 | h2
          · exact Or.inl (List.mem_cons_of_mem _ h2)
          · exact Or.inr h2

/-- Generic tag removal leaves a `tagFree` string. -/
theorem tagFree_subF_tags : ∀ (f : Nat) (s : Str), s.length ≤ f →
    tagFree (subF matchTag [] f s) := by
  intro f
  induction f with
  | zero =>
    intro s hlen
    cases s with
    | nil => trivial
    | cons c cs => simp at hlen
  | succ f ih =>
    intro s hlen
    cases s with
    | nil => trivial
    | cons c cs =>
      simp only [subF]
      cases hm : matchTag (c :: cs) with
      | some rest =>
        simp only [List.nil_append]
        obtain ⟨cs', he, -, -, -, hlt⟩ := matchTag_spec hm
        obtain ⟨-, hcs⟩ := List.cons.injEq .. ▸ he
        subst hcs
        refine ih rest ?_
        simp only [List.length_cons] at hlen
        omega
      | none =>
        have hcs : tagFree (subF matchTag [] f cs) := by
          refine ih cs ?_
          simp only [List.length_cons] at hlen
          omega
        refine ⟨?_, hcs⟩
        intro hc
        subst hc
        unfold matchTag at hm
        cases cs with
        | nil =>
          right
          intro hx
          rcases mem_subF (fun _ _ h => matchTag_spec h) hx with h1 | h1 <;>
            simp at h1
        | cons c2 rest =>
          by_cases hc2 : c2 = '>'
          · subst hc2
            left
            cases f with
            | zero => rfl
            | succ f =>
              simp only [subF]
              rw [show matchTag ('>' :: rest) = none from rfl]
              rfl
          · have hm2 : (if c2 = '>' then none
                else match rest.dropWhile (fun x => x ≠ '>') with
                  | '>' :: t => some t
                  | _ => none) = (none : Option Str) := hm
            rw [if_neg hc2] at hm2
            have hnil : rest.dropWhile (fun x => x ≠ '>') = [] := by
              cases hdw : rest.dropWhile (fun x => x ≠ '>') with
              | nil => rfl
              | cons d t =>
                have hd : d = '>' := by
                  have := List.head?_dropWhile_not
                    (fun x => decide (x ≠ '>')) rest
                  rw [hdw] at this
                  simpa using this
                subst hd
                rw [hdw] at hm2
                exact absurd hm2 (by simp)
            have hrest : '>' ∉ rest := by
              intro hx
              have := List.dropWhile_eq_nil_iff.mp hnil
              have h2 := this '>' hx
              simp at h2
            right
            intro hx
            rcases mem_subF (fun _ _ h => matchTag_spec h) hx with h1 | h1
            · rcases List.mem_cons.mp h1 with h2 | h2
              · exact hc2 h2.symm
              · exact hrest h2
            · simp at h1

/-! ## tagFree preservation -/

theorem tagFree_append_right {a b : Str} (h : tagFree (a ++ b)) :
    tagFree b := by
  induction a with
  | nil => exact h
  | cons c a' ih => exact ih h.2

theorem tagFree_of_eq_append {l : Str} (h : tagFree l) {l' t : Str}
    (he : l' ++ t = l) : tagFree l' := by
  induction l' generalizing l with
  | nil => trivial
  | cons c r' ih =>
    subst he
    obtain ⟨h1, h2⟩ := h
    refine ⟨fun hc => ?_, ih h2 rfl⟩
    rcases h1 hc with hh | hh
    · cases r' with
      | nil => exact Or.inr (by simp)
      | cons d ds =>
        left
        simp only [List.cons_append, List.head?_cons] at hh ⊢
        exact hh
    · right
      intro hx
      exact hh (List.mem_append_left _ hx)

theorem tagFree_dropWhile {p : Char → Bool} {l : Str} (h : tagFree l) :
    tagFree (l.dropWhile p) :=
  tagFree_append_right (a := l.takeWhile p)
    (by rw [List.takeWhile_append_dropWhile]; exact h)

theorem tagFree_pyStrip {l : Str} (h : tagFree l) : tagFree (pyStrip l) :=
  tagFree_of_eq_append (tagFree_dropWhile h)
    (pyStripEnd_append (pyStripStart l))

theorem tagFree_filter {p : Char → Bool}
    (hpgt : p '>' = true) {l : Str} (h : tagFree l) :
    tagFree (l.filter p) := by
  induction l with
  | nil => trivial
  | cons c r ih =>
    obtain ⟨h1, h2⟩ := h
    by_cases hpc : p c
    · rw [List.filter_cons_of_pos hpc]
      refine ⟨fun hc => ?_, ih h2⟩
      rcases h1 hc with hh | hh
      · cases r with
        | nil => simp at hh
        | cons d ds =>
          simp only [List.head?_cons, Option.some_inj] at hh
          subst hh
          left
          rw [List.filter_cons_of_pos hpgt]
          simp
      · right
        intro hx
        exact hh (List.mem_of_mem_filter hx)
    · rw [List.filter_cons_of_neg hpc]
      exact ih h2

theorem tagFree_map {f : Char → Char}
    (hlt : ∀ c, f c = '<' ↔ c = '<') (hgt : ∀ c, f c = '>' ↔ c = '>')
    {l : Str} (h : tagFree l) : tagFree (l.map f) := by
  induction l with
  | nil => trivial
  | cons c r ih =>
    obtain ⟨h1, h2⟩ := h
    refine ⟨fun hc => ?_, ih h2⟩
    have hc' : c = '<' := (hlt c).mp hc
    rcases h1 hc' with hh | hh
    · cases r with
      | nil => simp at hh
      | cons d ds =>
        simp only [List.head?_cons, Option.some_inj] at hh
        subst hh
        left
        simp only [List.map_cons, List.head?_cons, Option.some_inj]
        exact (hgt '>').mpr rfl
    · right
      intro hx
      obtain ⟨d, hd, hde⟩ := List.mem_map.mp hx
      exact hh ((hgt d).mp hde ▸ hd)

theorem tagFree_msp {l : Str} (h : tagFree l) :
    tagFree (multiSpaceSub l) := by
  induction l with
  | nil => trivial
  | cons c cs ih =>
    obtain ⟨h1, h2⟩ := h
    by_cases hc : isSpTab c
    · cases cs with
      | nil =>
        simp only [multiSpaceSub, hc, if_true]
        exact ⟨fun h => absurd h (by decide), trivial⟩
      | cons d ds =>
        by_cases hd : isSpTab d
        · rw [show multiSpaceSub (c :: d :: ds) = multiSpaceSub (d :: ds) by
            simp [multiSpaceSub, hc, hd]]
          exact ih h2
        · rw [show multiSpaceSub (c :: d :: ds)
              = ' ' :: multiSpaceSub (d :: ds) by
            simp [multiSpaceSub, hc, hd]]
          exact ⟨fun h => absurd h (by decide), ih h2⟩
    · rw [show multiSpaceSub (c :: cs) = c :: multiSpaceSub cs by
        cases cs <;> simp [multiSpaceSub, hc]]
      refine ⟨fun hce => ?_, ih h2⟩
      rcases h1 hce with hh | hh
      · cases cs with
        | nil => simp at hh
        | cons d ds =>
          simp only [List.head?_cons, Option.some_inj] at hh
          subst hh
          left
          rw [show multiSpaceSub ('>' :: ds) = '>' :: multiSpaceSub ds by
            cases ds <;> simp [multiSpaceSub, isSpTab]]
          simp
      · right
        intro hx
        rcases mem_multiSpaceSub hx with h3 | h3
        · exact hh h3
        · cases h3

theorem tagStage_fix {cfg : Config} {y : Str} (h : tagFree y) :
    tagStage cfg y = y := by
  unfold tagStage
  split
  · rw [show subBr y = y from subF_id
      (fun c cs hc => matcher_none_of_tagFree (fun _ _ h => matchBr_spec h)
        hc) h _]
    rw [show subP y = y from subF_id
      (fun c cs hc => matcher_none_of_tagFree (fun _ _ h => matchP_spec h)
        hc) h _]
    rw [show subLi y = y from subF_id
      (fun c cs hc => matcher_none_of_tagFree (fun _ _ h => matchLi_spec h)
        hc) h _]
    rw [show subTags y = y from subF_id
      (fun c cs hc => matcher_none_of_tagFree (fun _ _ h => matchTag_spec h)
        hc) h _]
  · rfl

/-! ## Unfolding equations for the line-strip scanner -/

theorem stripLinesF_congr : ∀ (f1 f2 : Nat) (s : Str),
    s.length ≤ f1 → s.length ≤ f2 → stripLinesF f1 s = stripLinesF f2 s := by
  intro f1
  induction f1 with
  | zero =>
    intro f2 s h1 h2
    have hs : s = [] := List.length_eq_zero.mp (Nat.le_zero.mp h1)
    subst hs
    cases f2 with
    | zero => rfl
    | succ f2 => rfl
  | succ f1 ih =>
    intro f2 s h1 h2
    cases s with
    | nil =>
      cases f2 with
      | zero => rfl
      | succ f2 => rfl
    | cons c cs =>
      cases f2 with
      | zero => simp at h2
      | succ f2 =>
        simp only [stripLinesF]
        cases hdrop : (c :: cs).dropWhile (fun x => x ≠ '\n') with
        | nil => rfl
        | cons d r =>
          have hd : d = '\n' := by
            have := List.head?_dropWhile_not
              (fun x => decide (x ≠ '\n')) (c :: cs)
            rw [hdrop] at this
            simpa using this
          subst hd
          have hr : r.length ≤ f1 ∧ r.length ≤ f2 := by
            have hsub : List.Sublist ('\n' :: r) (c :: cs) :=
              hdrop ▸ List.dropWhile_sublist _
            have := hsub.length_le
            simp only [List.length_cons] at this h1 h2
            omega
          change pyStrip _ ++ '\n' :: stripLinesF f1 r
            = pyStrip _ ++ '\n' :: stripLinesF f2 r
          rw [ih f2 r hr.1 hr.2]

/-- One-step unfolding of `stripLines`. -/
theorem stripLines_eq (s : Str) :
    stripLines s =
      match s.dropWhile (fun c => c ≠ '\n') with
      | '\n' :: r =>
        pyStrip (s.takeWhile (fun c => c ≠ '\n')) ++ '\n' :: stripLines r
      | _ => pyStrip (s.takeWhile (fun c => c ≠ '\n')) := by
  cases s with
  | nil => rfl
  | cons c cs =>
    show stripLinesF (c :: cs).length (c :: cs) = _
    simp only [List.length_cons, stripLinesF]
    cases hdrop : (c :: cs).dropWhile (fun x => x ≠ '\n') with
    | nil => rfl
    | cons d r =>
      have hd : d = '\n' := by
        have := List.head?_dropWhile_not
          (fun x => decide (x ≠ '\n')) (c :: cs)
        rw [hdrop] at this
        simpa using this
      subst hd
      have hr : r.length ≤ cs.length := by
        have hsub : List.Sublist ('\n' :: r) (c :: cs) :=
          hdrop ▸ List.dropWhile_sublist _
        have := hsub.length_le
        simp only [List.length_cons] at this
        omega
      change pyStrip _ ++ '\n' :: stripLinesF cs.length r
        = pyStrip _ ++ '\n' :: stripLines r
      rw [stripLinesF_congr cs.length r.length r hr le_rfl]
      rfl

/-! ## Structure of the greedy newline-run match -/

theorem nlRun_split {cs : Str} (h : '\n' ∈ nlRun cs) :
    ∃ A B, '\n' ∉ B ∧ (∀ x ∈ A, pyIsSpace x = true) ∧
      (∀ x ∈ B, pyIsSpace x = true) ∧
      nlSkip cs = A.length + 1 ∧
      cs = A ++ '\n' :: (B ++ cs.dropWhile pyIsSpace) ∧
      cs.drop (nlSkip cs) = B ++ cs.dropWhile pyIsSpace := by
  have hrev : '\n' ∈ (nlRun cs).reverse := List.mem_reverse.mpr h
  cases hdw : (nlRun cs).reverse.dropWhile (fun x => x ≠ '\n') with
  | nil =>
    exfalso
    have hall := List.dropWhile_eq_nil_iff.mp hdw
    have := hall '\n' hrev
    simp at this
  | cons d Z =>
    have hd : d = '\n' := by
      have := List.head?_dropWhile_not
        (fun x => decide (x ≠ '\n')) (nlRun cs).reverse
      rw [hdw] at this
      simpa using this
    subst hd
    have hsplit : (nlRun cs).reverse
        = (nlRun cs).reverse.takeWhile (fun x => x ≠ '\n')
          ++ '\n' :: Z := by
      rw [← hdw, List.takeWhile_append_dropWhile]
    have hT : '\n' ∉ (nlRun cs).reverse.takeWhile (fun x => x ≠ '\n') := by
      intro hx
      have := List.mem_takeWhile_imp hx
      simp at this
    have hrun : nlRun cs = Z.reverse ++ '\n'
        :: ((nlRun cs).reverse.takeWhile (fun x => x ≠ '\n')).reverse := by
      have := congrArg List.reverse hsplit
      simpa using this
    refine ⟨Z.reverse,
      ((nlRun cs).reverse.takeWhile (fun x => x ≠ '\n')).reverse,
      ?_, ?_, ?_, ?_, ?_, ?_⟩
    · intro hx
      exact hT (List.mem_reverse.mp hx)
    · intro x hx
      have hx2 : x ∈ nlRun cs := by
        rw [hrun]
        exact List.mem_append_left _ hx
      exact List.mem_takeWhile_imp hx2
    · intro x hx
      have hx2 : x ∈ nlRun cs := by
        rw [hrun]
        exact List.mem_append_right _ (List.mem_cons_of_mem _ hx)
      exact List.mem_takeWhile_imp hx2
    · unfold nlSkip
      have hlen := congrArg List.length hrun
      simp only [List.length_append, List.length_cons,
        List.length_reverse] at hlen
      simp only [List.length_reverse]
      omega
    · have hcs : cs = nlRun cs ++ cs.dropWhile pyIsSpace := by
        unfold nlRun
        rw [List.takeWhile_append_dropWhile]
      conv_lhs => rw [hcs, hrun]
      simp [List.append_assoc]
    · have hcs : cs = nlRun cs ++ cs.dropWhile pyIsSpace := by
        unfold nlRun
        rw [List.takeWhile_append_dropWhile]
      have hskip : nlSkip cs = Z.reverse.length + 1 := by
        unfold nlSkip
        have hlen := congrArg List.length hrun
        simp only [List.length_append, List.length_cons,
          List.length_reverse] at hlen
        simp only [List.length_reverse]
        omega
      rw [hskip]
      conv_lhs => rw [hcs, hrun]
      rw [show Z.reverse ++ '\n'
          :: ((nlRun cs).reverse.takeWhile (fun x => x ≠ '\n')).reverse
            ++ cs.dropWhile pyIsSpace
          = (Z.reverse ++ ['\n'])
            ++ (((nlRun cs).reverse.takeWhile
              (fun x => x ≠ '\n')).reverse ++ cs.dropWhile pyIsSpace) by
        simp]
      rw [show Z.reverse.length + 1 = (Z.reverse ++ ['\n']).length by simp]
      rw [List.drop_left]

/-! ## Codepoint facts about whitespace and the case map -/

theorem pyIsSpace_true_toNat {c : Char} (h : pyIsSpace c = true) :
    c.toNat ≤ 32 ∨ c.toNat = 0x85 ∨ 0xA0 ≤ c.toNat := by
  unfold pyIsSpace at h
  simp only [Bool.or_eq_true, decide_eq_true_eq, Bool.and_eq_true,
    or_assoc] at h
  rcases h with h|h|h|h|h|h|h|h|h|h|h|h|h|h|h|h
  all_goals first
    | omega
    | (subst h; decide)

theorem pyIsSpace_of_upper {c : Char} (h : 65 ≤ c.toNat ∧ c.toNat ≤ 90) :
    pyIsSpace c = false := by
  by_contra hc
  rcases pyIsSpace_true_toNat (Bool.not_eq_false _ ▸ hc) with h1 | h1 | h1
      <;> omega

theorem pyIsSpace_of_lower {c : Char} (h : 97 ≤ c.toNat ∧ c.toNat ≤ 122) :
    pyIsSpace c = false := by
  by_contra hc
  rcases pyIsSpace_true_toNat (Bool.not_eq_false _ ▸ hc) with h1 | h1 | h1
      <;> omega

/-- The ASCII case map leaves whitespace classification unchanged. -/
theorem pyToLower_pyIsSpace (c : Char) :
    pyIsSpace (pyToLower c) = pyIsSpace c := by
  by_cases h : 65 ≤ c.toNat ∧ c.toNat ≤ 90
  · rw [pyIsSpace_of_upper h]
    have ht := pyToLower_toNat_of_upper h
    exact pyIsSpace_of_lower (by omega)
  · rw [pyToLower_eq_self_of h]

theorem pyToLower_eq_nl {c : Char} (h : pyToLower c = '\n') : c = '\n' := by
  rcases pyToLower_target h with h1 | h1
  · exact h1
  · exact absurd h1 (by decide)

theorem pyToLower_nl : pyToLower '\n' = '\n' := by decide

/-! ## The newline collapse: head, membership-class preservation -/

theorem multiNewlineF_head (f : Nat) (s : Str) :
    (multiNewlineF f s).head? = s.head? := by
  cases f with
  | zero => rfl
  | succ f =>
    cases s with
    | nil => rfl
    | cons c cs =>
      simp only [multiNewlineF]
      by_cases hc : c = '\n'
      · rw [if_pos hc]
        by_cases hrun : (nlRun cs).contains '\n'
        · rw [if_pos hrun]
          simp [hc]
        · rw [if_neg hrun]
          simp [hc]
      · rw [if_neg hc]
        simp

theorem noTabDbl_drop {l : Str} (h : noTabDbl l) (n : Nat) :
    noTabDbl (l.drop n) :=
  noTabDbl_append_right (a := l.take n)
    (by rw [List.take_append_drop]; exact h)

theorem tagFree_drop {l : Str} (h : tagFree l) (n : Nat) :
    tagFree (l.drop n) :=
  tagFree_append_right (a := l.take n)
    (by rw [List.take_append_drop]; exact h)

theorem noTabDbl_mnl (f : Nat) {s : Str} (h : noTabDbl s) :
    noTabDbl (multiNewlineF f s) := by
  induction f generalizing s with
  | zero => exact h
  | succ f ih =>
    cases s with
    | nil => trivial
    | cons c cs =>
      obtain ⟨h1, h2, h3⟩ := h
      simp only [multiNewlineF]
      by_cases hc : c = '\n'
      · rw [if_pos hc]
        by_cases hrun : (nlRun cs).contains '\n'
        · rw [if_pos hrun]
          exact ⟨by decide, fun hsp => absurd hsp (by decide),
            by decide, fun hsp => absurd hsp (by decide),
            ih (noTabDbl_drop h3 _)⟩
        · rw [if_neg hrun]
          refine ⟨by decide, fun hsp => absurd hsp (by decide), ih h3⟩
      · rw [if_neg hc]
        refine ⟨h1, fun hsp => ?_, ih h3⟩
        rw [multiNewlineF_head]
        exact h2 hsp

theorem tagFree_mnl (f : Nat) {s : Str} (h : tagFree s) :
    tagFree (multiNewlineF f s) := by
  induction f generalizing s with
  | zero => exact h
  | succ f ih =>
    cases s with
    | nil => trivial
    | cons c cs =>
      obtain ⟨h1, h2⟩ := h
      simp only [multiNewlineF]
      by_cases hc : c = '\n'
      · rw [if_pos hc]
        by_cases hrun : (nlRun cs).contains '\n'
        · rw [if_pos hrun]
          exact ⟨fun he => absurd he (by decide),
            fun he => absurd he (by decide), ih (tagFree_drop h2 _)⟩
        · rw [if_neg hrun]
          exact ⟨fun he => absurd he (by decide), ih h2⟩
      · rw [if_neg hc]
        refine ⟨fun he => ?_, ih h2⟩
        rcases h1 he with hh | hh
        · left
          rw [multiNewlineF_head]
          exact hh
        · right
          intro hx
          rcases mem_multiNewlineF hx with h4 | h4
          · exact hh h4
          · exact absurd h4 (by decide)

/-! ## The newline collapse output shape -/

theorem nlFree_takeWhile_mnl (f : Nat) {s : Str}
    (h : '\n' ∉ s.takeWhile pyIsSpace) :
    '\n' ∉ (multiNewlineF f s).takeWhile pyIsSpace := by
  induction f generalizing s with
  | zero => exact h
  | succ f ih =>
    cases s with
    | nil => exact h
    | cons c cs =>
      by_cases hws : pyIsSpace c
      · have hc : c ≠ '\n' := by
          intro he
          exact h (by rw [List.takeWhile_cons_of_pos hws]
                      exact he ▸ List.mem_cons_self _ _)
        simp only [multiNewlineF, if_neg hc]
        rw [List.takeWhile_cons_of_pos hws] at h ⊢
        intro hx
        rcases List.mem_cons.mp hx with h1 | h1
        · exact hc h1.symm
        · exact ih (fun hy => h (List.mem_cons_of_mem _ hy)) h1
      · have hc : c ≠ '\n' := fun he => hws (by rw [he]; decide)
        simp only [multiNewlineF, if_neg hc]
        rw [List.takeWhile_cons_of_neg hws]
        simp

theorem afterNlOkW_append_left {a b : Str} (ha : '\n' ∉ a)
    (hb : afterNlOkW b) : afterNlOkW (a ++ b) := by
  induction a with
  | nil => exact hb
  | cons c a' ih =>
    refine ⟨fun hc => absurd (hc ▸ List.mem_cons_self _ _) ha, ?_⟩
    exact ih (fun hx => ha (List.mem_cons_of_mem _ hx))

theorem afterNlOkW_append_right {a b : Str} (h : afterNlOkW (a ++ b)) :
    afterNlOkW b := by
  induction a with
  | nil => exact h
  | cons c a' ih => exact ih h.2

theorem afterNlOk_append_right {a b : Str} (h : afterNlOk (a ++ b)) :
    afterNlOk b := by
  induction a with
  | nil => exact h
  | cons c a' ih => exact ih h.2

theorem mem_extraStage {c : Char} {cfg : Config} {t : Str}
    (h : c ∈ extraStage cfg t) : c ∈ t := by
  unfold extraStage at h
  split at h
  · exact List.mem_of_mem_filter h
  · exact h

theorem mem_allowedStage {c : Char} {cfg : Config} {t : Str}
    (h : c ∈ allowedStage cfg t) : c ∈ t := by
  unfold allowedStage at h
  split at h
  · exact List.mem_of_mem_filter h
  · exact h

/-- Every codepoint of the single-line whitespace stage output is neither a
newline nor a carriage return. -/
theorem whitespaceStage_no_nl {cfg : Config} {t : Str}
    (hps : cfg.preserve_newlines = false) :
    ∀ c ∈ whitespaceStage cfg t, c ≠ '\n' ∧ c ≠ '\r' := by
  intro c h
  unfold whitespaceStage at h
  rw [hps] at h
  simp only [Bool.false_eq_true, if_false] at h
  rcases mem_multiSpaceSub h with h1 | h1
  · rcases mem_strReplace_single h1 with h2 | h2
    · subst h2
      exact ⟨by decide, by decide⟩
    · rcases mem_strReplace_single h2.1 with h3 | h3
      · subst h3
        exact ⟨by decide, by decide⟩
      · exact ⟨h3.2, h2.2⟩
  · subst h1
    exact ⟨by decide, by decide⟩

/-! ## Strong induction on length, and the line decomposition -/

theorem strInd {P : Str → Prop}
    (step : ∀ s : Str, (∀ r : Str, r.length < s.length → P r) → P s) :
    ∀ s, P s := by
  intro s
  generalize hn : s.length = n
  induction n using Nat.strong_induction_on generalizing s with
  | _ n ih =>
    exact step s (fun r hr => ih r.length (hn ▸ hr) r rfl)

theorem takeWhile_append_cons {p : Char → Bool} {A : Str}
    (hA : ∀ x ∈ A, p x = true) {c : Char} (hc : p c = false) (r : Str) :
    (A ++ c :: r).takeWhile p = A := by
  induction A with
  | nil =>
    rw [List.nil_append, List.takeWhile_cons_of_neg]
    rw [hc]
    exact Bool.false_ne_true
  | cons a A' ih =>
    rw [List.cons_append, List.takeWhile_cons_of_pos
      (hA a (List.mem_cons_self _ _)),
      ih (fun x hx => hA x (List.mem_cons_of_mem _ hx))]

theorem dropWhile_append_cons {p : Char → Bool} {A : Str}
    (hA : ∀ x ∈ A, p x = true) {c : Char} (hc : p c = false) (r : Str) :
    (A ++ c :: r).dropWhile p = c :: r := by
  induction A with
  | nil =>
    rw [List.nil_append, List.dropWhile_cons_of_neg]
    rw [hc]
    exact Bool.false_ne_true
  | cons a A' ih =>
    rw [List.cons_append, List.dropWhile_cons_of_pos
      (hA a (List.mem_cons_self _ _)),
      ih (fun x hx => hA x (List.mem_cons_of_mem _ hx))]

theorem nl_decomp (s : Str) :
    '\n' ∉ s ∨ ∃ A r, '\n' ∉ A ∧ s = A ++ '\n' :: r := by
  cases hd : s.dropWhile (fun c => c ≠ '\n') with
  | nil =>
    left
    intro hmem
    have hall := List.dropWhile_eq_nil_iff.mp hd
    have := hall '\n' hmem
    simp at this
  | cons x xs =>
    right
    have hx : x = '\n' := by
      have h1 := List.head?_dropWhile_not (fun c => decide (c ≠ '\n')) s
      rw [hd] at h1
      simp at h1
      exact h1
    subst hx
    refine ⟨s.takeWhile (fun c => c ≠ '\n'), xs, ?_, ?_⟩
    · intro hmem
      have := List.mem_takeWhile_imp hmem
      simp at this
    · conv_lhs => rw [← List.takeWhile_append_dropWhile
        (p := fun c => decide (c ≠ '\n')) (l := s)]
      rw [hd]

theorem sl_no_nl {t : Str} (h : '\n' ∉ t) : stripLines t = pyStrip t := by
  have hall : ∀ x ∈ t, (fun c => decide (c ≠ '\n')) x = true := by
    intro x hx
    simp only [decide_eq_true_eq]
    intro he
    exact h (he ▸ hx)
  rw [stripLines_eq, List.dropWhile_eq_nil_iff.mpr hall,
    List.takeWhile_eq_self_iff.mpr hall]

theorem sl_append_nl {A : Str} (hA : '\n' ∉ A) (r : Str) :
    stripLines (A ++ '\n' :: r) = pyStrip A ++ '\n' :: stripLines r := by
  have hall : ∀ x ∈ A, (fun c => decide (c ≠ '\n')) x = true := by
    intro x hx
    simp only [decide_eq_true_eq]
    intro he
    exact hA (he ▸ hx)
  rw [stripLines_eq, takeWhile_append_cons hall (by decide),
    dropWhile_append_cons hall (by decide)]
  rfl

/-! ## Basic facts about `pyStrip` output shape -/

theorem nlNextW_nl (r2 : Str) :
    nlNextW ('\n' :: r2) ↔ '\n' ∉ r2.takeWhile pyIsSpace := Iff.rfl

theorem nlNextW_not_nl {c : Char} (hc : c ≠ '\n') (r : Str) :
    nlNextW (c :: r) ↔ '\n' ∉ (c :: r).takeWhile pyIsSpace := by
  unfold nlNextW
  split
  · next r2 heq =>
    rw [List.cons.injEq] at heq
    exact absurd heq.1 hc
  · exact Iff.rfl

theorem nlNext_nl_cons (d : Char) (x : Str) :
    nlNext ('\n' :: d :: x) ↔ ¬(pyIsSpace d = true) := Iff.rfl

theorem nlNext_nl_nil : nlNext ['\n'] := trivial

theorem nlNext_not_nl {c : Char} (hc : c ≠ '\n') (x : Str) :
    nlNext (c :: x) ↔ ¬(pyIsSpace c = true) := by
  have hred : nlNext (c :: x) =
      if c = '\n' then
        (match x with
          | [] => True
          | d :: _ => ¬(pyIsSpace d = true))
      else ¬(pyIsSpace c = true) := rfl
  rw [hred, if_neg hc]

theorem dropWhile_head_false {p : Char → Bool} {l : Str} {c : Char} {u : Str}
    (h : l.dropWhile p = c :: u) : p c = false := by
  have h1 := List.head?_dropWhile_not p l
  rw [h] at h1
  simp at h1
  exact h1

theorem pyStripEnd_prefix (v : Str) : ∃ w, pyStripEnd v ++ w = v :=
  ⟨_, pyStripEnd_append v⟩

theorem pyStrip_head (t : Str) :
    pyStrip t = [] ∨ ∃ c u, pyStrip t = c :: u ∧ pyIsSpace c = false := by
  cases he : pyStrip t with
  | nil => exact Or.inl rfl
  | cons c u =>
    right
    refine ⟨c, u, rfl, ?_⟩
    obtain ⟨w, hw⟩ := pyStripEnd_prefix (pyStripStart t)
    have hps : pyStrip t = pyStripEnd (pyStripStart t) := rfl
    rw [hps] at he
    rw [he] at hw
    have hv : t.dropWhile pyIsSpace = c :: (u ++ w) := by
      unfold pyStripStart at hw
      rw [← hw]
      simp
    exact dropWhile_head_false hv

theorem pyStrip_eq_nil_all_ws {t : Str} (h : pyStrip t = []) :
    ∀ x ∈ t, pyIsSpace x = true := by
  intro x hx
  have hsplit : t.takeWhile pyIsSpace ++ t.dropWhile pyIsSpace = t :=
    List.takeWhile_append_dropWhile _ _
  have hend : (t.dropWhile pyIsSpace).reverse.dropWhile pyIsSpace = [] := by
    have : pyStripEnd (pyStripStart t) = [] := h
    unfold pyStripEnd pyStripStart at this
    have h2 := congrArg List.reverse this
    rw [List.reverse_reverse] at h2
    exact h2
  have hall2 : ∀ y ∈ (t.dropWhile pyIsSpace).reverse, pyIsSpace y = true :=
    List.dropWhile_eq_nil_iff.mp hend
  rw [← hsplit] at hx
  rcases List.mem_append.mp hx with h1 | h1
  · exact List.mem_takeWhile_imp h1
  · exact hall2 x (List.mem_reverse.mpr h1)

theorem mem_nl_takeWhile {A : Str} (hA : ∀ x ∈ A, pyIsSpace x = true)
    (r : Str) : '\n' ∈ (A ++ '\n' :: r).takeWhile pyIsSpace := by
  induction A with
  | nil =>
    rw [List.nil_append, List.takeWhile_cons_of_pos (by decide)]
    exact List.mem_cons_self _ _
  | cons a A' ih =>
    rw [List.cons_append, List.takeWhile_cons_of_pos
      (hA a (List.mem_cons_self _ _))]
    exact List.mem_cons_of_mem _ (ih (fun x hx => hA x
      (List.mem_cons_of_mem _ hx)))

/-! ## Head shape of the line-strip output -/

theorem sl_head_cases (t : Str) :
    stripLines t = [] ∨
    (∃ c u, stripLines t = c :: u ∧ pyIsSpace c = false) ∨
    (∃ A r, (∀ x ∈ A, pyIsSpace x = true) ∧ '\n' ∉ A ∧
      t = A ++ '\n' :: r ∧ stripLines t = '\n' :: stripLines r) := by
  rcases nl_decomp t with hnl | ⟨A, r, hAnl, hteq⟩
  · rw [sl_no_nl hnl]
    rcases pyStrip_head t with h | ⟨c, u, hcu, hc⟩
    · exact Or.inl h
    · exact Or.inr (Or.inl ⟨c, u, hcu, hc⟩)
  · rw [hteq, sl_append_nl hAnl]
    rcases pyStrip_head A with h | ⟨c, u, hcu, hc⟩
    · right; right
      refine ⟨A, r, pyStrip_eq_nil_all_ws h, hAnl, rfl, ?_⟩
      rw [h]
      rfl
    · right; left
      refine ⟨c, u ++ '\n' :: stripLines r, ?_, hc⟩
      rw [hcu]
      rfl

/-! ## The `afterNlOk` shape: closure properties -/

theorem afterNlOk_of_nl_free {t : Str} (h : '\n' ∉ t) : afterNlOk t := by
  induction t with
  | nil => trivial
  | cons c r ih =>
    exact ⟨fun hc => absurd (hc ▸ List.mem_cons_self _ _) h,
      ih (fun hx => h (List.mem_cons_of_mem _ hx))⟩

theorem afterNlOk_append_left_nlfree {a b : Str} (ha : '\n' ∉ a)
    (hb : afterNlOk b) : afterNlOk (a ++ b) := by
  induction a with
  | nil => exact hb
  | cons c a' ih =>
    exact ⟨fun hc => absurd (hc ▸ List.mem_cons_self _ _) ha,
      ih (fun hx => ha (List.mem_cons_of_mem _ hx))⟩

theorem nlNext_of_append {a b : Str} (h : nlNext (a ++ b)) : nlNext a := by
  cases a with
  | nil => trivial
  | cons c a' =>
    rw [List.cons_append] at h
    by_cases hc : c = '\n'
    · subst hc
      cases a' with
      | nil => exact nlNext_nl_nil
      | cons d a2 =>
        rw [List.cons_append] at h
        rw [nlNext_nl_cons] at h
        rw [nlNext_nl_cons]
        exact h
    · rw [nlNext_not_nl hc] at h
      rw [nlNext_not_nl hc]
      exact h

theorem afterNlOk_of_append_left {a b : Str} (h : afterNlOk (a ++ b)) :
    afterNlOk a := by
  induction a with
  | nil => trivial
  | cons c a' ih => exact ⟨fun hc => nlNext_of_append (h.1 hc), ih h.2⟩

theorem afterNlOk_pyStrip {t : Str} (h : afterNlOk t) :
    afterNlOk (pyStrip t) := by
  have h1 : afterNlOk (pyStripStart t) := by
    unfold pyStripStart
    exact afterNlOk_append_right
      (a := t.takeWhile pyIsSpace)
      (by rw [List.takeWhile_append_dropWhile]; exact h)
  obtain ⟨w, hw⟩ := pyStripEnd_prefix (pyStripStart t)
  exact afterNlOk_of_append_left (a := pyStrip t) (hw ▸ h1)

theorem nlNext_map_lower {r : Str} (h : nlNext r) :
    nlNext (r.map pyToLower) := by
  cases r with
  | nil => trivial
  | cons d r2 =>
    rw [List.map_cons]
    by_cases hd : d = '\n'
    · subst hd
      rw [pyToLower_nl]
      cases r2 with
      | nil => exact nlNext_nl_nil
      | cons e r3 =>
        rw [nlNext_nl_cons] at h
        rw [List.map_cons, nlNext_nl_cons]
        intro hsp
        rw [pyToLower_pyIsSpace] at hsp
        exact h hsp
    · have hd2 : pyToLower d ≠ '\n' := fun he => hd (pyToLower_eq_nl he)
      rw [nlNext_not_nl hd2]
      rw [nlNext_not_nl hd] at h
      intro hsp
      rw [pyToLower_pyIsSpace] at hsp
      exact h hsp

theorem afterNlOk_map_lower {t : Str} (h : afterNlOk t) :
    afterNlOk (t.map pyToLower) := by
  induction t with
  | nil => trivial
  | cons c r ih =>
    rw [List.map_cons]
    exact ⟨fun hc => nlNext_map_lower (h.1 (pyToLower_eq_nl hc)), ih h.2⟩

/-! ## The newline collapse is the identity on `afterNlOk` strings -/

theorem mnl_id {f : Nat} {s : Str} (h : afterNlOk s) (hf : s.length ≤ f) :
    multiNewlineF f s = s := by
  induction f generalizing s with
  | zero =>
    have : s = [] := List.length_eq_zero.mp (Nat.le_zero.mp hf)
    rw [this]
    rfl
  | succ f ih =>
    cases s with
    | nil => rfl
    | cons c cs =>
      simp only [multiNewlineF]
      by_cases hc : c = '\n'
      · rw [if_pos hc]
        have hnext : nlNext cs := h.1 hc
        subst hc
        cases cs with
        | nil =>
          rw [if_neg (by decide)]
          rw [show multiNewlineF f [] = [] by cases f <;> rfl]
        | cons d cs2 =>
          by_cases hd : d = '\n'
          · subst hd
            have htw : cs2.takeWhile pyIsSpace = [] := by
              cases cs2 with
              | nil => rfl
              | cons e cs3 =>
                rw [nlNext_nl_cons] at hnext
                exact List.takeWhile_cons_of_neg hnext
            have hrun : nlRun ('\n' :: cs2) = ['\n'] := by
              unfold nlRun
              rw [List.takeWhile_cons_of_pos (by decide), htw]
            rw [if_pos (by rw [hrun]; decide)]
            have hskip : nlSkip ('\n' :: cs2) = 1 := by
              unfold nlSkip
              rw [hrun]
              rfl
            rw [hskip]
            have hdrop : ('\n' :: cs2).drop 1 = cs2 := rfl
            rw [hdrop, ih h.2.2 (by
              simp only [List.length_cons] at hf
              omega)]
          · rw [nlNext_not_nl hd] at hnext
            have hrun : nlRun (d :: cs2) = [] := by
              unfold nlRun
              exact List.takeWhile_cons_of_neg hnext
            rw [if_neg (by rw [hrun]; decide)]
            rw [ih h.2 (by
              simp only [List.length_cons] at hf ⊢
              omega)]
      · rw [if_neg hc]
        rw [ih h.2 (by
          simp only [List.length_cons] at hf
          omega)]

/-! ## The newline collapse output satisfies `afterNlOkW` -/

theorem takeWhile_dropWhile_nil (p : Char → Bool) (l : Str) :
    (l.dropWhile p).takeWhile p = [] := by
  cases hd : l.dropWhile p with
  | nil => rfl
  | cons c u =>
    exact List.takeWhile_cons_of_neg (by
      rw [dropWhile_head_false hd]
      exact Bool.false_ne_true)

theorem takeWhile_append_all {p : Char → Bool} {B y : Str}
    (hB : ∀ x ∈ B, p x = true) (hy : y.takeWhile p = []) :
    (B ++ y).takeWhile p = B := by
  cases y with
  | nil =>
    rw [List.append_nil]
    exact List.takeWhile_eq_self_iff.mpr hB
  | cons z zs =>
    have hz : p z = false := by
      by_cases hz : p z = true
      · rw [List.takeWhile_cons_of_pos hz] at hy
        exact absurd hy (by simp)
      · exact Bool.eq_false_iff.mpr hz
    exact takeWhile_append_cons hB hz zs

theorem nlNextW_nil : nlNextW [] :=
  fun h => absurd h (List.not_mem_nil '\n')

theorem nlNextW_of_take {X : Str} (h : '\n' ∉ X.takeWhile pyIsSpace) :
    nlNextW X := by
  cases X with
  | nil => exact nlNextW_nil
  | cons x xs =>
    by_cases hsp : pyIsSpace x = true
    · have hx : x ≠ '\n' := by
        intro he
        exact h (by
          rw [List.takeWhile_cons_of_pos hsp]
          exact he ▸ List.mem_cons_self _ _)
      exact (nlNextW_not_nl hx xs).mpr h
    · have hx : x ≠ '\n' := fun he => hsp (by rw [he]; decide)
      exact (nlNextW_not_nl hx xs).mpr h

theorem afterNlOkW_mnl {f : Nat} {s : Str} (hf : s.length ≤ f) :
    afterNlOkW (multiNewlineF f s) := by
  induction f generalizing s with
  | zero =>
    have : s = [] := List.length_eq_zero.mp (Nat.le_zero.mp hf)
    rw [this]
    trivial
  | succ f ih =>
    cases s with
    | nil => trivial
    | cons c cs =>
      simp only [multiNewlineF]
      have hlen : cs.length ≤ f := by
        simp only [List.length_cons] at hf
        omega
      by_cases hc : c = '\n'
      · rw [if_pos hc]
        by_cases hrun : (nlRun cs).contains '\n'
        · rw [if_pos hrun]
          have hmem : '\n' ∈ nlRun cs := by simpa using hrun
          obtain ⟨A, B, hBnl, hA, hB, hskip, hcs, hdrop⟩ := nlRun_split hmem
          have hrest : '\n' ∉ (cs.drop (nlSkip cs)).takeWhile pyIsSpace := by
            rw [hdrop, takeWhile_append_all hB
              (takeWhile_dropWhile_nil pyIsSpace cs)]
            exact hBnl
          have hX : '\n' ∉
              (multiNewlineF f (cs.drop (nlSkip cs))).takeWhile pyIsSpace :=
            nlFree_takeWhile_mnl f hrest
          refine ⟨fun _ => ?_, fun _ => nlNextW_of_take hX, ?_⟩
          · rw [nlNextW_nl]
            exact hX
          · exact ih (le_trans (by
              have := List.length_drop (nlSkip cs) cs
              omega) hlen)
        · rw [if_neg hrun]
          have hnf : '\n' ∉ cs.takeWhile pyIsSpace := by
            intro hm
            exact hrun (by
              unfold nlRun
              simpa using hm)
          exact ⟨fun _ => nlNextW_of_take (nlFree_takeWhile_mnl f hnf),
            ih hlen⟩
      · rw [if_neg hc]
        exact ⟨fun he => absurd he hc, ih hlen⟩

/-! ## The line-strip output of an `afterNlOkW` string satisfies
`afterNlOk` -/

theorem afterNlOk_sl : ∀ z : Str, afterNlOkW z → afterNlOk (stripLines z) := by
  refine strInd ?_
  intro z ihz hw
  rcases nl_decomp z with hnl | ⟨A, r, hAnl, heq⟩
  · rw [sl_no_nl hnl]
    exact afterNlOk_of_nl_free (fun hm => hnl (mem_of_mem_pyStrip hm))
  · subst heq
    rw [sl_append_nl hAnl]
    have hw2 : afterNlOkW ('\n' :: r) := afterNlOkW_append_right hw
    have hnw : nlNextW r := hw2.1 rfl
    have hr : afterNlOkW r := hw2.2
    have hlen : r.length < (A ++ '\n' :: r).length := by
      simp only [List.length_append, List.length_cons]
      omega
    have ihr := ihz r hlen hr
    refine afterNlOk_append_left_nlfree
      (fun hm => hAnl (mem_of_mem_pyStrip hm)) ⟨fun _ => ?_, ihr⟩
    rcases sl_head_cases r with h0 | ⟨c, u, hcu, hc⟩ |
        ⟨A2, r2, hA2ws, hA2nl, hre, hsl⟩
    · rw [h0]
      trivial
    · rw [hcu]
      have hcnl : c ≠ '\n' := by
        intro he
        rw [he] at hc
        exact absurd hc (by decide)
      rw [nlNext_not_nl hcnl, hc]
      exact Bool.false_ne_true
    · rw [hsl]
      rcases sl_head_cases r2 with h0 | ⟨c, u, hcu, hc⟩ |
          ⟨A3, r3, hA3ws, hA3nl, hre2, hsl2⟩
      · rw [h0]
        exact nlNext_nl_nil
      · rw [hcu, nlNext_nl_cons, hc]
        exact Bool.false_ne_true
      · exfalso
        subst hre
        cases A2 with
        | nil =>
          rw [List.nil_append, nlNextW_nl] at hnw
          apply hnw
          rw [hre2]
          exact mem_nl_takeWhile hA3ws r3
        | cons a A2' =>
          have ha : a ≠ '\n' :=
            fun he => hA2nl (he ▸ List.mem_cons_self _ _)
          rw [List.cons_append, nlNextW_not_nl ha] at hnw
          apply hnw
          rw [show a :: (A2' ++ '\n' :: r2) = (a :: A2') ++ '\n' :: r2
            from rfl]
          exact mem_nl_takeWhile hA2ws r2

/-! ## The lines representation: `joinNl` -/

theorem joinNl_cons_cons (l l2 : Str) (ls : List Str) :
    joinNl (l :: l2 :: ls) = l ++ '\n' :: joinNl (l2 :: ls) := rfl

theorem joinNl_exists : ∀ t : Str, ∃ ls : List Str, ls ≠ [] ∧
    (∀ l ∈ ls, '\n' ∉ l) ∧ t = joinNl ls := by
  refine strInd ?_
  intro t iht
  rcases nl_decomp t with hnl | ⟨A, r, hAnl, heq⟩
  · refine ⟨[t], by simp, ?_, rfl⟩
    intro l hl
    rw [List.mem_singleton] at hl
    exact hl ▸ hnl
  · subst heq
    obtain ⟨ls, hne, hlnl, hr⟩ := iht r (by
      simp only [List.length_append, List.length_cons]
      omega)
    cases ls with
    | nil => exact absurd rfl hne
    | cons l2 ls2 =>
      refine ⟨A :: l2 :: ls2, by simp, ?_, ?_⟩
      · intro l hl
        rcases List.mem_cons.mp hl with h1 | h1
        · exact h1 ▸ hAnl
        · exact hlnl l h1
      · rw [joinNl_cons_cons, ← hr]

theorem sl_joinNl : ∀ ls : List Str, (∀ l ∈ ls, '\n' ∉ l) →
    stripLines (joinNl ls) = joinNl (ls.map pyStrip) := by
  intro ls
  induction ls with
  | nil => intro _; rfl
  | cons l ls' ih =>
    intro h
    cases ls' with
    | nil => exact sl_no_nl (h l (List.mem_cons_self _ _))
    | cons l2 ls2 =>
      rw [joinNl_cons_cons, sl_append_nl (h l (List.mem_cons_self _ _)),
        ih (fun x hx => h x (List.mem_cons_of_mem _ hx))]
      rfl

theorem map_joinNl {g : Char → Char} (hg : g '\n' = '\n') :
    ∀ ls : List Str, (joinNl ls).map g = joinNl (ls.map (List.map g)) := by
  intro ls
  induction ls with
  | nil => rfl
  | cons l ls' ih =>
    cases ls' with
    | nil => rfl
    | cons l2 ls2 =>
      rw [joinNl_cons_cons, List.map_append, List.map_cons, hg, ih]
      rfl

theorem dropWhile_map {p : Char → Bool} {g : Char → Char} :
    ∀ l : Str,
    (l.map g).dropWhile p = (l.dropWhile (fun x => p (g x))).map g := by
  intro l
  induction l with
  | nil => rfl
  | cons c u ih =>
    rw [List.map_cons]
    by_cases hc : p (g c) = true
    · rw [List.dropWhile_cons_of_pos hc,
        List.dropWhile_cons_of_pos (p := fun x => p (g x)) hc, ih]
    · rw [List.dropWhile_cons_of_neg hc,
        List.dropWhile_cons_of_neg (p := fun x => p (g x)) hc,
        List.map_cons]

theorem pyStrip_map_lower (l : Str) :
    pyStrip (l.map pyToLower) = (pyStrip l).map pyToLower := by
  have hfun : (fun x => pyIsSpace (pyToLower x)) = pyIsSpace := by
    funext x
    exact pyToLower_pyIsSpace x
  unfold pyStrip pyStripStart pyStripEnd
  rw [dropWhile_map, hfun, ← List.map_reverse, dropWhile_map, hfun,
    ← List.map_reverse]

/-! ## Heads and tails of `pyStrip`-fixed strings -/

theorem pyStripEnd_length (v : Str) : (pyStripEnd v).length ≤ v.length := by
  conv_rhs => rw [← pyStripEnd_append v]
  rw [List.length_append]
  omega

theorem pyStripStart_eq_self_of_fixed {m : Str} (h : pyStrip m = m) :
    pyStripStart m = m := by
  have h1 : List.Sublist (pyStripStart m) m := List.dropWhile_sublist pyIsSpace
  have h2 : m.length ≤ (pyStripStart m).length := by
    have h3 : (pyStrip m).length ≤ (pyStripStart m).length :=
      pyStripEnd_length _
    rw [h] at h3
    exact h3
  exact h1.eq_of_length (Nat.le_antisymm h1.length_le h2)

theorem pyStripEnd_eq_self_of_fixed {m : Str} (h : pyStrip m = m) :
    pyStripEnd m = m := by
  have h1 := pyStripStart_eq_self_of_fixed h
  have h2 : pyStrip m = pyStripEnd (pyStripStart m) := rfl
  rw [h1] at h2
  rw [← h2, h]

theorem stripped_head {m : Str} (h : pyStrip m = m) {c : Char} {u : Str}
    (he : m = c :: u) : pyIsSpace c = false := by
  have h1 := pyStripStart_eq_self_of_fixed h
  unfold pyStripStart at h1
  rw [he] at h1
  exact dropWhile_head_false h1

theorem stripped_last {m : Str} (h : pyStrip m = m) {c : Char} {u : Str}
    (he : m.reverse = c :: u) : pyIsSpace c = false := by
  have h1 := pyStripEnd_eq_self_of_fixed h
  unfold pyStripEnd at h1
  have h2 := congrArg List.reverse h1
  rw [List.reverse_reverse] at h2
  rw [he] at h2
  exact dropWhile_head_false h2

/-! ## Stripping a join of trimmed lines -/

theorem pyStripStart_joinNl :
    ∀ ms : List Str,
    (∀ m ∈ ms, ∀ c u, m = c :: u → pyIsSpace c = false) →
    (joinNl ms).dropWhile pyIsSpace =
      joinNl (ms.dropWhile (fun m => m.isEmpty)) := by
  intro ms
  induction ms with
  | nil => intro _; rfl
  | cons m ms' ih =>
    intro h
    cases ms' with
    | nil =>
      cases m with
      | nil => rfl
      | cons c u =>
        have hc := h (c :: u) (List.mem_cons_self _ _) c u rfl
        show (c :: u).dropWhile pyIsSpace = _
        rw [List.dropWhile_cons_of_neg (by
          rw [hc]
          exact Bool.false_ne_true)]
        rfl
    | cons m2 ms2 =>
      cases m with
      | nil =>
        show ('\n' :: joinNl (m2 :: ms2)).dropWhile pyIsSpace = _
        rw [List.dropWhile_cons_of_pos (by decide),
          ih (fun x hx c u he => h x (List.mem_cons_of_mem _ hx) c u he)]
        rfl
      | cons c u =>
        have hc := h (c :: u) (List.mem_cons_self _ _) c u rfl
        show ((c :: u) ++ '\n' :: joinNl (m2 :: ms2)).dropWhile pyIsSpace = _
        rw [List.cons_append, List.dropWhile_cons_of_neg (by
          rw [hc]
          exact Bool.false_ne_true)]
        rfl

theorem joinNl_snoc : ∀ (ls : List Str), ls ≠ [] → ∀ x,
    joinNl (ls ++ [x]) = joinNl ls ++ '\n' :: x := by
  intro ls
  induction ls with
  | nil => exact fun h => absurd rfl h
  | cons m ls' ih =>
    intro _ x
    cases ls' with
    | nil => rfl
    | cons m2 ls2 =>
      show joinNl (m :: (m2 :: (ls2 ++ [x]))) = _
      rw [joinNl_cons_cons,
        show (m2 :: (ls2 ++ [x])) = (m2 :: ls2) ++ [x] from rfl,
        ih (by simp) x, joinNl_cons_cons]
      simp [List.append_assoc]

theorem joinNl_reverse : ∀ ms : List Str,
    (joinNl ms).reverse = joinNl ((ms.map List.reverse).reverse) := by
  intro ms
  induction ms with
  | nil => rfl
  | cons m ms' ih =>
    cases ms' with
    | nil => rfl
    | cons m2 ms2 =>
      rw [joinNl_cons_cons, List.reverse_append, List.reverse_cons, ih]
      conv_rhs => rw [List.map_cons, List.reverse_cons]
      rw [joinNl_snoc ((List.map List.reverse (m2 :: ms2)).reverse)
        (by simp) m.reverse]
      simp [List.append_assoc]

theorem sl_fix_core {ms : List Str}
    (hnl : ∀ m ∈ ms, '\n' ∉ m)
    (hst : ∀ m ∈ ms, pyStrip m = m) :
    stripLines (pyStrip (joinNl ms)) = pyStrip (joinNl ms) := by
  have hhd : ∀ m ∈ ms, ∀ c u, m = c :: u → pyIsSpace c = false :=
    fun m hm c u he => stripped_head (hst m hm) he
  have h1 : pyStripStart (joinNl ms) =
      joinNl (ms.dropWhile (fun m => m.isEmpty)) := pyStripStart_joinNl ms hhd
  have hmem1 : ∀ m ∈ ms.dropWhile (fun m => m.isEmpty), m ∈ ms :=
    fun m hm => (List.dropWhile_sublist _).mem hm
  have h2 : pyStripEnd (joinNl (ms.dropWhile (fun m => m.isEmpty))) =
      joinNl (((((ms.dropWhile (fun m => m.isEmpty)).map
          List.reverse).reverse.dropWhile (fun m => m.isEmpty)).map
        List.reverse).reverse) := by
    unfold pyStripEnd
    rw [joinNl_reverse (ms.dropWhile (fun m => m.isEmpty)),
      pyStripStart_joinNl
        (((ms.dropWhile (fun m => m.isEmpty)).map List.reverse).reverse)
        (by
          intro n hn c u he
          rw [List.mem_reverse] at hn
          obtain ⟨k, hk, he2⟩ := List.mem_map.mp hn
          exact stripped_last (hst k (hmem1 k hk)) (he2.symm ▸ he)),
      joinNl_reverse]
  have hmem2 : ∀ m ∈ (((((ms.dropWhile (fun m => m.isEmpty)).map
      List.reverse).reverse.dropWhile (fun m => m.isEmpty)).map
        List.reverse).reverse), m ∈ ms := by
    intro m hm
    rw [List.mem_reverse] at hm
    obtain ⟨n, hn, he⟩ := List.mem_map.mp hm
    have hn2 := (List.dropWhile_sublist _).mem hn
    rw [List.mem_reverse] at hn2
    obtain ⟨k, hk, he2⟩ := List.mem_map.mp hn2
    rw [← he, ← he2, List.reverse_reverse]
    exact hmem1 k hk
  have hps : pyStrip (joinNl ms) =
      joinNl (((((ms.dropWhile (fun m => m.isEmpty)).map
          List.reverse).reverse.dropWhile (fun m => m.isEmpty)).map
        List.reverse).reverse) := by
    show pyStripEnd (pyStripStart (joinNl ms)) = _
    rw [h1, h2]
  rw [hps, sl_joinNl _ (fun m hm => hnl m (hmem2 m hm)),
    List.map_congr_left (fun m hm => hst m (hmem2 m hm)),
    show ∀ N : List Str, List.map (fun a => a) N = N from
      fun N => List.map_id N]

theorem sl_fix_strip_lower (cfg : Config) (z : Str) :
    stripLines (pyStrip (lowerStage cfg (stripLines z))) =
      pyStrip (lowerStage cfg (stripLines z)) := by
  obtain ⟨ls, hne, hlnl, hz⟩ := joinNl_exists z
  rw [hz, sl_joinNl ls hlnl]
  unfold lowerStage
  split
  · rw [map_joinNl pyToLower_nl (ls.map pyStrip)]
    apply sl_fix_core
    · intro m hm
      obtain ⟨k, hk, he⟩ := List.mem_map.mp hm
      obtain ⟨l0, hl0, he0⟩ := List.mem_map.mp hk
      intro hmem
      rw [← he] at hmem
      obtain ⟨d, hd, hde⟩ := List.mem_map.mp hmem
      have hdn : d = '\n' := pyToLower_eq_nl hde
      rw [← he0] at hd
      exact hlnl l0 hl0 (hdn ▸ mem_of_mem_pyStrip hd)
    · intro m hm
      obtain ⟨k, hk, he⟩ := List.mem_map.mp hm
      obtain ⟨l0, hl0, he0⟩ := List.mem_map.mp hk
      rw [← he, ← he0, pyStrip_map_lower, pyStrip_idem]
  · apply sl_fix_core
    · intro m hm
      obtain ⟨l0, hl0, he0⟩ := List.mem_map.mp hm
      intro hmem
      rw [← he0] at hmem
      exact hlnl l0 hl0 (mem_of_mem_pyStrip hmem)
    · intro m hm
      obtain ⟨l0, hl0, he0⟩ := List.mem_map.mp hm
      rw [← he0, pyStrip_idem]

/-! ## `noTabDbl` and `tagFree` survive the line strip -/

theorem noTabDbl_append_head {a b : Str} (ha : noTabDbl a) (hb : noTabDbl b)
    (hhead : b.head? ≠ some ' ') : noTabDbl (a ++ b) := by
  induction a with
  | nil => exact hb
  | cons c a' ih =>
    obtain ⟨h1, h2, h3⟩ := ha
    refine ⟨h1, fun hsp => ?_, ih h3⟩
    cases a' with
    | nil => exact hhead
    | cons d a2 => exact h2 hsp

theorem noTabDbl_sl : ∀ z, noTabDbl z → noTabDbl (stripLines z) := by
  refine strInd ?_
  intro z ihz h
  rcases nl_decomp z with hnl | ⟨A, r, hAnl, heq⟩
  · rw [sl_no_nl hnl]
    exact noTabDbl_pyStrip h
  · subst heq
    rw [sl_append_nl hAnl]
    have hA : noTabDbl A := noTabDbl_of_eq_append h rfl
    have hr : noTabDbl r := noTabDbl_append_right (a := A ++ ['\n']) (by
      rw [List.append_assoc]
      exact h)
    have hlen : r.length < (A ++ '\n' :: r).length := by
      simp only [List.length_append, List.length_cons]
      omega
    exact noTabDbl_append_head (noTabDbl_pyStrip hA)
      ⟨by decide, fun hsp => absurd hsp (by decide), ihz r hlen hr⟩
      (by simp)

theorem tagFree_drop_mid : ∀ {P w b : Str}, tagFree (P ++ (w ++ b)) →
    '>' ∉ w → tagFree (P ++ b) := by
  intro P
  induction P with
  | nil =>
    intro w b h hw
    exact tagFree_append_right (a := w) h
  | cons c P' ih =>
    intro w b h hw
    obtain ⟨h1, h2⟩ := h
    refine ⟨fun hc => ?_, ih h2 hw⟩
    rcases h1 hc with hh | hh
    · cases P' with
      | cons d P2 => exact Or.inl hh
      | nil =>
        cases w with
        | nil => exact Or.inl hh
        | cons e w2 =>
          exact absurd ((Option.some.inj hh) ▸ List.mem_cons_self e w2) hw
    · right
      intro hx
      apply hh
      rcases List.mem_append.mp hx with h3 | h3
      · exact List.mem_append.mpr (Or.inl h3)
      · exact List.mem_append.mpr (Or.inr (List.mem_append.mpr (Or.inr h3)))

theorem tagFree_replace_tail : ∀ {X r u : Str}, tagFree (X ++ '\n' :: r) →
    tagFree u → (∀ c ∈ u, c ∈ r ∨ c = '\n') → tagFree (X ++ '\n' :: u) := by
  intro X
  induction X with
  | nil =>
    intro r u _ hu _
    exact ⟨fun hc => absurd hc (by decide), hu⟩
  | cons x X' ih =>
    intro r u h hu hmem
    obtain ⟨h1, h2⟩ := h
    refine ⟨fun hc => ?_, ih h2 hu hmem⟩
    rcases h1 hc with hh | hh
    · cases X' with
      | cons d X2 => exact Or.inl hh
      | nil => exact absurd (Option.some.inj hh) (by decide)
    · right
      intro hx
      apply hh
      rcases List.mem_append.mp hx with h3 | h3
      · exact List.mem_append.mpr (Or.inl h3)
      · rcases List.mem_cons.mp h3 with h4 | h4
        · exact List.mem_append.mpr (Or.inr (h4 ▸ List.mem_cons_self _ _))
        · rcases hmem _ h4 with h5 | h5
          · exact List.mem_append.mpr (Or.inr (List.mem_cons_of_mem _ h5))
          · exact absurd h5 (by decide)

theorem tagFree_sl : ∀ z, tagFree z → tagFree (stripLines z) := by
  refine strInd ?_
  intro z ihz h
  rcases nl_decomp z with hnl | ⟨A, r, hAnl, heq⟩
  · rw [sl_no_nl hnl]
    exact tagFree_pyStrip h
  · subst heq
    rw [sl_append_nl hAnl]
    have hsplit1 : A.takeWhile pyIsSpace ++ pyStripStart A = A := by
      unfold pyStripStart
      exact List.takeWhile_append_dropWhile _ _
    have h2 : tagFree (pyStripStart A ++ '\n' :: r) := by
      apply tagFree_append_right (a := A.takeWhile pyIsSpace)
      rw [← List.append_assoc, hsplit1]
      exact h
    have hsplit2 : pyStrip A ++
        ((pyStripStart A).reverse.takeWhile pyIsSpace).reverse =
        pyStripStart A := pyStripEnd_append (pyStripStart A)
    have h3 : tagFree (pyStrip A ++ '\n' :: r) := by
      apply tagFree_drop_mid
        (w := ((pyStripStart A).reverse.takeWhile pyIsSpace).reverse)
      · rw [← List.append_assoc, hsplit2]
        exact h2
      · intro hgt
        rw [List.mem_reverse] at hgt
        have hsp := List.mem_takeWhile_imp hgt
        exact absurd hsp (by decide)
    have hr : tagFree r := tagFree_append_right (a := A ++ ['\n']) (by
      rw [List.append_assoc]
      exact h)
    have hlen : r.length < (A ++ '\n' :: r).length := by
      simp only [List.length_append, List.length_cons]
      omega
    exact tagFree_replace_tail h3 (ihz r hlen hr)
      (fun c hc => mem_stripLines hc)

/-! ## Disabled stages are the identity -/

theorem tagStage_off {cfg : Config} {t : Str}
    (h : cfg.remove_html_tags = false) : tagStage cfg t = t := by
  unfold tagStage
  rw [h]
  rfl

theorem invisibleStage_off {cfg : Config} {t : Str}
    (h : cfg.remove_invisible = false) : invisibleStage cfg t = t := by
  unfold invisibleStage
  rw [h]
  rfl

theorem spaceStage_off {cfg : Config} {t : Str}
    (h : cfg.normalize_spaces = false) : spaceStage cfg t = t := by
  unfold spaceStage
  rw [h]
  rfl

theorem dashStage_off {cfg : Config} {t : Str}
    (h : cfg.normalize_dashes = false) : dashStage cfg t = t := by
  unfold dashStage
  rw [h]
  rfl

theorem quoteStage_off {cfg : Config} {t : Str}
    (h : cfg.remove_quotes = false) : quoteStage cfg t = t := by
  unfold quoteStage
  rw [h]
  rfl

theorem lowerStage_off {cfg : Config} {t : Str}
    (h : cfg.lowercase = false) : lowerStage cfg t = t := by
  unfold lowerStage
  rw [h]
  rfl

theorem whitespaceStage_true_eq {cfg : Config} {t : Str}
    (h : cfg.preserve_newlines = true) :
    whitespaceStage cfg t =
      stripLines (multiNewlineSub (multiSpaceSub t)) := by
  unfold whitespaceStage
  rw [h]
  rfl

/-! ## `tagFree` survives every later stage -/

theorem repMap_eq_iff {table : Str} {v c x : Char}
    (hv : v ≠ x) (ht : table.contains x = false) :
    ((if table.contains c then v else c) = x) ↔ c = x := by
  by_cases hcs : table.contains c = true
  · rw [if_pos hcs]
    constructor
    · intro h
      exact absurd h hv
    · intro h
      rw [h] at hcs
      rw [ht] at hcs
      exact absurd hcs Bool.false_ne_true
  · rw [if_neg hcs]

theorem tagFree_invisibleStage {cfg : Config} {t : Str} (h : tagFree t) :
    tagFree (invisibleStage cfg t) := by
  unfold invisibleStage
  split
  · exact tagFree_filter (by decide) h
  · exact h

theorem tagFree_spaceStage {cfg : Config} {t : Str} (h : tagFree t) :
    tagFree (spaceStage cfg t) := by
  unfold spaceStage
  split
  · exact tagFree_map (fun c => repMap_eq_iff (by decide) (by decide))
      (fun c => repMap_eq_iff (by decide) (by decide)) h
  · exact h

theorem tagFree_quoteStage {cfg : Config} {t : Str} (h : tagFree t) :
    tagFree (quoteStage cfg t) := by
  unfold quoteStage
  split
  · exact tagFree_map (fun c => repMap_eq_iff (by decide) (by decide))
      (fun c => repMap_eq_iff (by decide) (by decide)) h
  · exact h

theorem tagFree_strRep {a b : Char} (hab : a ≠ '<' ∧ a ≠ '>')
    (hbb : b ≠ '<' ∧ b ≠ '>') {t : Str} (h : tagFree t) :
    tagFree (strReplace [a] [b] t) := by
  rw [strReplace_single]
  refine tagFree_map (fun c => ?_) (fun c => ?_) h
  · constructor
    · intro hfc
      by_cases hc : c = a
      · rw [if_pos hc] at hfc
        exact absurd hfc hbb.1
      · rw [if_neg hc] at hfc
        exact hfc
    · intro hc
      subst hc
      rw [if_neg (fun he => hab.1 he.symm)]
  · constructor
    · intro hfc
      by_cases hc : c = a
      · rw [if_pos hc] at hfc
        exact absurd hfc hbb.2
      · rw [if_neg hc] at hfc
        exact hfc
    · intro hc
      subst hc
      rw [if_neg (fun he => hab.2 he.symm)]

theorem tagFree_foldRep {l : List (Char × Char)}
    (hl : ∀ d ∈ l, (d.1 ≠ '<' ∧ d.1 ≠ '>') ∧ (d.2 ≠ '<' ∧ d.2 ≠ '>'))
    {t : Str} (h : tagFree t) :
    tagFree (l.foldl (fun t d => strReplace [d.1] [d.2] t) t) := by
  induction l generalizing t with
  | nil => exact h
  | cons d ds ih =>
    rw [List.foldl_cons]
    exact ih (fun e he => hl e (List.mem_cons_of_mem _ he))
      (tagFree_strRep (hl d (List.mem_cons_self _ _)).1
        (hl d (List.mem_cons_self _ _)).2 h)

theorem dashes_not_angle :
    ∀ d ∈ DASHES, (d.1 ≠ '<' ∧ d.1 ≠ '>') ∧ (d.2 ≠ '<' ∧ d.2 ≠ '>') := by
  decide

theorem tagFree_dashStage {cfg : Config} {t : Str} (h : tagFree t) :
    tagFree (dashStage cfg t) := by
  unfold dashStage
  split
  · have hprop := dashes_not_angle
    generalize hD : DASHES = l
    rw [hD] at hprop
    exact tagFree_foldRep hprop h
  · exact h

theorem tagFree_whitespaceStage {cfg : Config} {t : Str} (h : tagFree t) :
    tagFree (whitespaceStage cfg t) := by
  unfold whitespaceStage
  split
  · refine tagFree_sl _ ?_
    unfold multiNewlineSub
    exact tagFree_mnl _ (tagFree_msp h)
  · exact tagFree_msp (tagFree_strRep (by decide) (by decide)
      (tagFree_strRep (by decide) (by decide) h))

theorem tagFree_lowerStage {cfg : Config} {t : Str} (h : tagFree t) :
    tagFree (lowerStage cfg t) := by
  unfold lowerStage
  split
  · refine tagFree_map (fun c => ?_) (fun c => ?_) h
    · constructor
      · intro hfc
        rcases pyToLower_target hfc with h1 | h1
        · exact h1
        · exact absurd h1 (by decide)
      · intro hc
        subst hc
        decide
    · constructor
      · intro hfc
        rcases pyToLower_target hfc with h1 | h1
        · exact h1
        · exact absurd h1 (by decide)
      · intro hc
        subst hc
        decide
  · exact h

/-! ## `noTabDbl` and `afterNlOk` for the cleaned value -/

theorem noTabDbl_whitespaceStage (cfg : Config) (t : Str) :
    noTabDbl (whitespaceStage cfg t) := by
  unfold whitespaceStage
  split
  · refine noTabDbl_sl _ ?_
    unfold multiNewlineSub
    exact noTabDbl_mnl _ (noTabDbl_msp _)
  · exact noTabDbl_msp _

theorem noTabDbl_lowerStage {cfg : Config} {t : Str} (h : noTabDbl t) :
    noTabDbl (lowerStage cfg t) := by
  unfold lowerStage
  split
  · refine noTabDbl_map (fun c hfc => ?_) (fun c hfc => ?_) h
    · rcases pyToLower_target hfc with h1 | h1
      · exact h1
      · exact absurd h1 (by decide)
    · rcases pyToLower_target hfc with h1 | h1
      · exact h1
      · exact absurd h1 (by decide)
  · exact h

theorem afterNlOk_lowerStage {cfg : Config} {t : Str} (h : afterNlOk t) :
    afterNlOk (lowerStage cfg t) := by
  unfold lowerStage
  split
  · exact afterNlOk_map_lower h
  · exact h

/-! ## Propagating per-codepoint invariants to the cleaned value -/

theorem pyStrip_preserve {P : Char → Prop} {t : Str}
    (h : ∀ x ∈ t, P x) : ∀ x ∈ pyStrip t, P x :=
  fun x hx => h x (mem_of_mem_pyStrip hx)

theorem lower_preserve {cfg : Config} {P : Char → Prop}
    (hP : ∀ c : Char, 97 ≤ c.toNat → c.toNat ≤ 122 → P c) {t : Str}
    (h : ∀ x ∈ t, P x) : ∀ x ∈ lowerStage cfg t, P x := by
  intro x hx
  rcases mem_lowerStage hx with h1 | ⟨d, hd, hde⟩
  · exact h x h1
  · rcases pyToLower_target hde with h2 | h2
    · exact h2 ▸ h d hd
    · exact hP x h2.1 h2.2

theorem ws_preserve {cfg : Config} {P : Char → Prop}
    (hsp : P ' ') (hnl : P '\n') {t : Str}
    (h : ∀ x ∈ t, P x) : ∀ x ∈ whitespaceStage cfg t, P x := by
  intro x hx
  rcases mem_whitespaceStage hx with h1 | h1 | h1
  · exact h x h1
  · exact h1 ▸ hsp
  · exact h1 ▸ hnl

theorem quote_preserve {cfg : Config} {P : Char → Prop} (hsp : P ' ')
    {t : Str} (h : ∀ x ∈ t, P x) : ∀ x ∈ quoteStage cfg t, P x := by
  intro x hx
  rcases mem_quoteStage hx with h1 | h1
  · exact h x h1
  · exact h1 ▸ hsp

theorem dash_preserve {cfg : Config} {P : Char → Prop} (hda : P '-')
    {t : Str} (h : ∀ x ∈ t, P x) : ∀ x ∈ dashStage cfg t, P x := by
  intro x hx
  rcases mem_dashStage hx with h1 | h1
  · exact h x h1
  · exact h1 ▸ hda

theorem space_preserve {cfg : Config} {P : Char → Prop} (hsp : P ' ')
    {t : Str} (h : ∀ x ∈ t, P x) : ∀ x ∈ spaceStage cfg t, P x := by
  intro x hx
  rcases mem_spaceStage hx with h1 | h1
  · exact h x h1
  · exact h1 ▸ hsp

/-! ## Idempotence of the pre-truncation pipeline -/

theorem preTruncClean_idem (cfg : Config)
    (hd : cfg.decode_html_entities = false)
    (he : cfg.extra_remove = [])
    (ha : cfg.allowed_chars = none) (s : Str) :
    preTruncClean cfg (preTruncClean cfg s) = preTruncClean cfg s := by
  unfold preTruncClean
  simp only [decodeStage_off hd, extraStage_empty he, allowedStage_none ha]
  set y := pyStrip (lowerStage cfg (whitespaceStage cfg (quoteStage cfg
    (dashStage cfg (spaceStage cfg (invisibleStage cfg (tagStage cfg s)))))))
    with hy
  have htagFree : cfg.remove_html_tags = true → tagFree y := by
    intro hf
    rw [hy]
    apply tagFree_pyStrip
    apply tagFree_lowerStage
    apply tagFree_whitespaceStage
    apply tagFree_quoteStage
    apply tagFree_dashStage
    apply tagFree_spaceStage
    apply tagFree_invisibleStage
    unfold tagStage
    rw [hf, if_pos rfl]
    exact tagFree_subF_tags _ _ le_rfl
  have hnoTab : noTabDbl y := by
    rw [hy]
    exact noTabDbl_pyStrip (noTabDbl_lowerStage
      (noTabDbl_whitespaceStage cfg _))
  have hafter : cfg.preserve_newlines = true → afterNlOk y := by
    intro hps
    rw [hy]
    apply afterNlOk_pyStrip
    apply afterNlOk_lowerStage
    rw [whitespaceStage_true_eq hps]
    apply afterNlOk_sl
    unfold multiNewlineSub
    exact afterNlOkW_mnl le_rfl
  have hslfix : cfg.preserve_newlines = true → stripLines y = y := by
    intro hps
    rw [hy, whitespaceStage_true_eq hps]
    exact sl_fix_strip_lower cfg _
  have hnl2 : cfg.preserve_newlines = false →
      ∀ x ∈ y, x ≠ '\n' ∧ x ≠ '\r' := by
    intro hps
    rw [hy]
    refine pyStrip_preserve (lower_preserve ?_
      (whitespaceStage_no_nl hps))
    intro c h1 h2
    constructor
    · intro hc
      rw [hc] at h1
      exact absurd h1 (by decide)
    · intro hc
      rw [hc] at h1
      exact absurd h1 (by decide)
  have htag2 : tagStage cfg y = y := by
    by_cases hf : cfg.remove_html_tags = true
    · exact tagStage_fix (htagFree hf)
    · exact tagStage_off (Bool.eq_false_iff.mpr hf)
  have hinv2 : invisibleStage cfg y = y := by
    by_cases hf : cfg.remove_invisible = true
    · refine invisibleStage_fix ?_
      rw [hy]
      refine pyStrip_preserve (lower_preserve ?_ (ws_preserve ?_ ?_
        (quote_preserve ?_ (dash_preserve ?_ (space_preserve ?_
          (invisibleStage_out hf))))))
      · intro c h1 h2
        by_contra hcon
        rcases invisible_true_toNat (Bool.not_eq_false _ ▸ hcon)
            with h3 | h3 <;> omega
      · decide
      · decide
      · decide
      · decide
      · decide
    · exact invisibleStage_off (Bool.eq_false_iff.mpr hf)
  have hspace2 : spaceStage cfg y = y := by
    by_cases hf : cfg.normalize_spaces = true
    · refine spaceStage_fix ?_
      rw [hy]
      refine pyStrip_preserve (lower_preserve ?_ (ws_preserve ?_ ?_
        (quote_preserve ?_ (dash_preserve ?_ (spaceStage_out hf)))))
      · intro c h1 h2
        by_contra hcon
        have hcon2 : SPECIAL_SPACES.contains c = true :=
          Bool.not_eq_false _ ▸ hcon
        have hmem : c ∈ SPECIAL_SPACES := by simpa using hcon2
        have := special_spaces_ge c hmem
        omega
      · decide
      · decide
      · decide
      · decide
    · exact spaceStage_off (Bool.eq_false_iff.mpr hf)
  have hdash2 : dashStage cfg y = y := by
    by_cases hf : cfg.normalize_dashes = true
    · refine dashStage_fix ?_
      rw [hy]
      refine pyStrip_preserve (lower_preserve ?_ (ws_preserve ?_ ?_
        (quote_preserve ?_ (dashStage_out hf))))
      · intro c h1 h2 d hdm heq
        have := dash_keys_ge d hdm
        rw [← heq] at this
        omega
      · decide
      · decide
      · decide
    · exact dashStage_off (Bool.eq_false_iff.mpr hf)
  have hquote2 : quoteStage cfg y = y := by
    by_cases hf : cfg.remove_quotes = true
    · refine quoteStage_fix ?_
      rw [hy]
      refine pyStrip_preserve (lower_preserve ?_ (ws_preserve ?_ ?_
        (quoteStage_out hf)))
      · intro c h1 h2
        by_contra hcon
        have hcon2 : QUOTES.contains c = true :=
          Bool.not_eq_false _ ▸ hcon
        have hmem : c ∈ QUOTES := by simpa using hcon2
        exact quotes_not_ascii_lower c hmem ⟨h1, h2⟩
      · decide
      · decide
    · exact quoteStage_off (Bool.eq_false_iff.mpr hf)
  have hlow2 : lowerStage cfg y = y := by
    by_cases hf : cfg.lowercase = true
    · refine lowerStage_fix ?_
      rw [hy]
      exact pyStrip_preserve (lowerStage_out hf)
    · exact lowerStage_off (Bool.eq_false_iff.mpr hf)
  have hws2 : whitespaceStage cfg y = y := by
    by_cases hps : cfg.preserve_newlines = true
    · rw [whitespaceStage_true_eq hps, multiSpaceSub_fix hnoTab,
        show multiNewlineSub y = y from mnl_id (hafter hps) le_rfl,
        hslfix hps]
    · have hps2 : cfg.preserve_newlines = false := Bool.eq_false_iff.mpr hps
      unfold whitespaceStage
      rw [hps2]
      simp only [Bool.false_eq_true, if_false]
      rw [strReplace_single_fix (fun c hc => ((hnl2 hps2) c hc).1),
        strReplace_single_fix (fun c hc => ((hnl2 hps2) c hc).2),
        multiSpaceSub_fix hnoTab]
  rw [htag2, hinv2, hspace2, hdash2, hquote2, hws2, hlow2, hy]
  exact pyStrip_idem _

end TextCleaner

namespace Claims

open TextCleaner

/-! ## C1 (counterexample part) -/

/-- C1 counterexample: with the default configuration (no truncation
involved), `clean` is not idempotent: the entity-decoding stage maps
`&amp;amp;amp;` to `&amp;`, which a second run decodes further to `&`. -/
theorem clean_not_idempotent_default :
    clean {} (clean {} "&amp;amp;amp;".data) ≠ clean {} "&amp;amp;amp;".data := by
  decide

/-- C1 (amended): `clean` is idempotent whenever entity decoding is off,
no extra characters are removed, no allowed-character class is set and no
maximum length is set; every other option (tag removal, invisible-character
removal, space/dash/quote normalization, either whitespace mode, and
lowercasing) may be chosen freely, and the input is arbitrary. -/
theorem clean_idempotent_restricted (cfg : Config)
    (hd : cfg.decode_html_entities = false)
    (he : cfg.extra_remove = [])
    (ha : cfg.allowed_chars = none)
    (hm : cfg.max_length = none) (s : Str) :
    clean cfg (clean cfg s) = clean cfg s := by
  by_cases hs : s = []
  · rw [hs, clean_nil, clean_nil]
  · have h1 : clean cfg s = preTruncClean cfg s := by
      unfold clean
      rw [if_neg hs, truncStage_none hm]
    rw [h1]
    by_cases hy0 : preTruncClean cfg s = []
    · rw [hy0, clean_nil]
    · have h2 : clean cfg (preTruncClean cfg s) =
          preTruncClean cfg (preTruncClean cfg s) := by
        unfold clean
        rw [if_neg hy0, truncStage_none hm]
      rw [h2, preTruncClean_idem cfg hd he ha s]

/-- C1 witness: the amended idempotence theorem applied at a concrete
configuration (entity decoding off, all the free options at their
defaults) and a concrete input exercising tags, whitespace runs, an
untouched entity and a dash. -/
theorem clean_idempotent_restricted_witness :
    clean { decode_html_entities := false }
        (clean { decode_html_entities := false }
          "  <p>Hello   WORLD</p> &amp; x - y  ".data) =
      clean { decode_html_entities := false }
        "  <p>Hello   WORLD</p> &amp; x - y  ".data :=
  clean_idempotent_restricted _ rfl rfl rfl rfl _

/-! ## C2 (counterexample part) -/

/-- C2 counterexample: the curly quotation marks U+2018, U+2019, U+201C and
U+201D are not in `QUOTES` (the source lines commented as curly quotes hold
ASCII quote characters), and the curly apostrophe U+2019 consequently
survives `clean` under the default configuration with
`remove_quotes=true`. -/
theorem quotes_missing_curly :
    '’' ∉ QUOTES ∧ '‘' ∉ QUOTES ∧ '“' ∉ QUOTES ∧
      '”' ∉ QUOTES ∧ clean {} "a’b".data = "a’b".data := by
  decide

/-! ## C2 (amended part) -/

/-- C2 (amended): `QUOTES` contains the ASCII quote and apostrophe, the
guillemets, the low-9 and reversed high double quotes U+201E/U+201F, the
reversed single quote U+201B, backtick and acute accent, the prime marks,
the CJK corner quotes U+301D/U+301E and the fullwidth quote U+FF02 — but
not the curly quotes U+2018/U+2019/U+201C/U+201D, which pass through
unchanged; and under `remove_quotes=true` no codepoint of `QUOTES` ever
appears in the output of `clean`, for any input and any configuration. -/
theorem quotes_table_and_removal :
    ('"' ∈ QUOTES ∧ '\'' ∈ QUOTES ∧ '«' ∈ QUOTES ∧ '»' ∈ QUOTES ∧
      '„' ∈ QUOTES ∧ '‟' ∈ QUOTES ∧ '‛' ∈ QUOTES ∧ '`' ∈ QUOTES ∧
      '´' ∈ QUOTES ∧ '″' ∈ QUOTES ∧ '′' ∈ QUOTES ∧ '〝' ∈ QUOTES ∧
      '〞' ∈ QUOTES ∧ '＂' ∈ QUOTES ∧
      '‘' ∉ QUOTES ∧ '’' ∉ QUOTES ∧ '“' ∉ QUOTES ∧ '”' ∉ QUOTES) ∧
    ∀ (cfg : Config) (s : Str), cfg.remove_quotes = true →
      ∀ c ∈ clean cfg s, c ∉ QUOTES := by
  refine ⟨by decide, ?_⟩
  intro cfg s hrq c hc hq
  by_cases hs : s = []
  · subst hs
    simp at hc
  · unfold clean at hc
    rw [if_neg hs] at hc
    have hnq : ∀ x ∈ quoteStage cfg (dashStage cfg (spaceStage cfg
        (invisibleStage cfg (tagStage cfg (decodeStage cfg s))))),
        x ∉ QUOTES := by
      intro x hx hxq
      unfold quoteStage at hx
      rw [hrq] at hx
      simp only [if_true] at hx
      obtain ⟨d, -, hde⟩ := List.mem_map.mp hx
      by_cases hdq : QUOTES.contains d
      · rw [if_pos hdq] at hde
        subst hde
        exact absurd hxq (by decide)
      · rw [if_neg hdq] at hde
        subst hde
        exact hdq (List.elem_eq_true_of_mem hxq)
    have hws : ∀ x ∈ whitespaceStage cfg (allowedStage cfg (extraStage cfg
        (quoteStage cfg (dashStage cfg (spaceStage cfg (invisibleStage cfg
          (tagStage cfg (decodeStage cfg s)))))))), x ∉ QUOTES := by
      intro x hx
      rcases mem_whitespaceStage hx with h4 | h4 | h4
      · exact hnq x (mem_extraStage (mem_allowedStage h4))
      · subst h4
        decide
      · subst h4
        decide
    rcases mem_truncStage hc with h1 | h1
    on_goal 2 => exact absurd hq (h1 ▸ by decide)
    have h2 := mem_of_mem_pyStrip h1
    rcases mem_lowerStage h2 with h3 | ⟨d, hd, hde⟩
    · exact hws c h3 hq
    · rcases pyToLower_target hde with h5 | h5
      · exact hws c (h5 ▸ hd) hq
      · exact (by decide : ∀ q ∈ QUOTES,
          ¬(97 ≤ q.toNat ∧ q.toNat ≤ 122)) c hq h5

/-- C2 witness: the ASCII double quote is gone from the cleaned output. -/
theorem quotes_table_and_removal_witness :
    '"' ∉ clean {} "a\"b".data :=
  fun h =>
    quotes_table_and_removal.2 {} "a\"b".data rfl '"' h (by decide)

/-! ## C3 -/

/-- C3: construction never inspects `allowed_chars` — `initCleaner`
succeeds for every raw configuration, including one whose fragment `z-a`
is malformed — and the checked clean on that successfully constructed
instance fails with the pattern error at cleaning time.  This contradicts
the claim in both directions: construction does not fail fast, and `clean`
can raise under a successfully constructed configuration. -/
theorem allowedChars_error_at_clean_time :
    (∀ rc : RawConfig, ∃ cl, initCleaner rc = Except.ok cl) ∧
    ((initCleaner { allowed_chars := some "z-a".data }).bind
        (fun cl => cleanChecked cl "x".data))
      = Except.error "bad character range" := by
  constructor
  · intro rc
    exact ⟨_, rfl⟩
  · rfl

/-! ## C4 -/

/-- C4 counterexample: with `max_length=5`, the input `"abcd e"` (length 6)
cleans to `"abcd..."` (length 7): the truncated result exceeds the input's
own length even though a space occurs inside the cut. -/
theorem trunc_exceeds_input_length :
    clean { max_length := some 5 } "abcd e".data = "abcd...".data ∧
      ("abcd e".data).length <
        (clean { max_length := some 5 } "abcd e".data).length := by
  decide

/-- C4 (amended): when `max_length = m` is set (nonzero) and the cleaned
text exceeds it, `clean` cuts the cleaned text to `m` codepoints, backs off
to just before the last space of the cut when the cut contains one (so the
kept prefix is followed by a space in the cleaned text and never splits a
word), keeps the whole cut otherwise, and appends `...`; the result has at
most `m + 3` codepoints (it can exceed the input's length by up to 2). -/
theorem clean_truncation_spec (cfg : Config) (s : Str) (m : Nat)
    (hm : cfg.max_length = some m) (h0 : m ≠ 0)
    (hgt : m < (preTruncClean cfg s).length) :
    ∃ p,
      clean cfg s = p ++ ['.', '.', '.'] ∧
      p.length ≤ m ∧
      (clean cfg s).length ≤ m + 3 ∧
      (' ' ∈ (preTruncClean cfg s).take m →
        ∃ q, (preTruncClean cfg s).take m = p ++ ' ' :: q ∧ ' ' ∉ q) ∧
      (' ' ∉ (preTruncClean cfg s).take m →
        p = (preTruncClean cfg s).take m) := by
  have hs : s ≠ [] := by
    intro h
    subst h
    rw [preTruncClean_nil] at hgt
    simp at hgt
  have hcut : ((preTruncClean cfg s).take m).length = m := by
    rw [List.length_take]
    omega
  have hcl : clean cfg s
      = rsplitBeforeLastSpace ((preTruncClean cfg s).take m)
          ++ ['.', '.', '.'] := by
    unfold clean truncStage
    rw [if_neg hs, hm]
    show (if m ≠ 0 ∧ m < (preTruncClean cfg s).length
        then rsplitBeforeLastSpace ((preTruncClean cfg s).take m)
          ++ ['.', '.', '.']
        else preTruncClean cfg s) = _
    rw [if_pos ⟨h0, hgt⟩]
  cases hb : beforeLastSpace ((preTruncClean cfg s).take m) with
  | some p =>
    obtain ⟨q, hq, hq'⟩ := beforeLastSpace_spec hb
    have hr : rsplitBeforeLastSpace ((preTruncClean cfg s).take m) = p := by
      unfold rsplitBeforeLastSpace
      rw [hb]
    have hlen : p.length + 1 + q.length = m := by
      have := congrArg List.length hq
      simp at this
      omega
    refine ⟨p, by rw [hcl, hr], by omega, ?_, ?_, ?_⟩
    · rw [hcl, hr]
      simp
      omega
    · intro _
      exact ⟨q, hq, hq'⟩
    · intro hns
      exact absurd (by rw [hq]; simp : ' ' ∈ (preTruncClean cfg s).take m) hns
  | none =>
    have hns : ' ' ∉ (preTruncClean cfg s).take m :=
      beforeLastSpace_eq_none.mp hb
    have hr : rsplitBeforeLastSpace ((preTruncClean cfg s).take m)
        = (preTruncClean cfg s).take m := by
      unfold rsplitBeforeLastSpace
      rw [hb]
    refine ⟨(preTruncClean cfg s).take m, by rw [hcl, hr], by omega, ?_,
      fun hsp => absurd hsp hns, fun _ => rfl⟩
    rw [hcl, hr]
    simp

/-- C4 witness: the spec's own example, `max_length=10` on
`"hello world foo"`. -/
theorem clean_truncation_spec_witness :
    ∃ p,
      clean { max_length := some 10 } "hello world foo".data
          = p ++ ['.', '.', '.'] ∧
      p.length ≤ 10 ∧
      (clean { max_length := some 10 } "hello world foo".data).length
          ≤ 10 + 3 ∧
      (' ' ∈ (preTruncClean { max_length := some 10 }
          "hello world foo".data).take 10 →
        ∃ q, (preTruncClean { max_length := some 10 }
            "hello world foo".data).take 10 = p ++ ' ' :: q ∧ ' ' ∉ q) ∧
      (' ' ∉ (preTruncClean { max_length := some 10 }
          "hello world foo".data).take 10 →
        p = (preTruncClean { max_length := some 10 }
          "hello world foo".data).take 10) :=
  clean_truncation_spec { max_length := some 10 } "hello world foo".data 10
    rfl (by decide) (by decide)

/-! ## C5 -/

/-- C5 counterexample: with `normalize_spaces=false` (all other flags at
default, so entity decoding is on), `clean('a&nbsp;b')` is not `'a b'`:
the generic decoder turns `&nbsp;` into U+00A0 before the literal
`HTML_ENTITIES` replacement loop can see it. -/
theorem nbsp_not_plain_space :
    clean { normalize_spaces := false } "a&nbsp;b".data ≠ "a b".data := by
  decide

/-- C5 (amended): the entity-decoding stage turns `&nbsp;` into the
non-breaking space U+00A0 (the literal `&nbsp;` table entry never fires
because the generic decoder runs first); with `normalize_spaces=false` the
NBSP reaches the output, and only the default `normalize_spaces=true`
turns it into a plain ASCII space. -/
theorem nbsp_decodes_to_nbsp :
    clean { normalize_spaces := false } "a&nbsp;b".data = "a b".data ∧
      clean {} "a&nbsp;b".data = "a b".data := by
  decide

/-! ## C6 -/

/-- C6 counterexample: under `preserve_newlines=true`, the spec's example
input does not clean to the claimed two-line string: a blank line is left
between the two text lines. -/
theorem entity_tag_example_not_two_lines :
    clean { preserve_newlines := true }
        "<p>Hello &amp; welcome</p><br>Next line".data
      ≠ "Hello & welcome\nNext line".data := by
  decide

/-- C6 (amended): under `preserve_newlines=true` the example input cleans
to `"Hello & welcome\n\nNext line"`: the first line is
`"Hello & welcome"`, then one blank line (the collapsed `</p><br>`
sequence), then `"Next line"`. -/
theorem entity_tag_example_three_lines :
    clean { preserve_newlines := true }
        "<p>Hello &amp; welcome</p><br>Next line".data
      = "Hello & welcome\n\nNext line".data := by
  decide

/-! ## C7 -/

/-- C7: for every input and every configuration with
`preserve_newlines=false`, the output of `clean` contains no newline and no
carriage-return codepoint. -/
theorem clean_single_line_has_no_newline (cfg : Config) (s : Str)
    (hps : cfg.preserve_newlines = false) :
    '\n' ∉ clean cfg s ∧ '\r' ∉ clean cfg s := by
  by_cases hs : s = []
  · subst hs
    simp
  · have key : ∀ x ∈ clean cfg s, x ≠ '\n' ∧ x ≠ '\r' := by
      intro x hx
      unfold clean at hx
      rw [if_neg hs] at hx
      rcases mem_truncStage hx with h1 | h1
      on_goal 2 => exact ⟨h1 ▸ by decide, h1 ▸ by decide⟩
      have h2 := mem_of_mem_pyStrip h1
      rcases mem_lowerStage h2 with h3 | ⟨d, hd, hde⟩
      · exact whitespaceStage_no_nl hps x h3
      · rcases pyToLower_target hde with h5 | h5
        · exact h5 ▸ whitespaceStage_no_nl hps d hd
        · constructor <;> (intro he; subst he; revert h5; decide)
    exact ⟨fun hn => (key _ hn).1 rfl, fun hr => (key _ hr).2 rfl⟩

/-- C7 witness: a concrete multi-line input cleans to a single line. -/
theorem clean_single_line_has_no_newline_witness :
    '\n' ∉ clean {} "a\nb\r\nc".data ∧ '\r' ∉ clean {} "a\nb\r\nc".data :=
  clean_single_line_has_no_newline {} "a\nb\r\nc".data rfl

/-! ## C8 -/

/-- C8: for every configuration and input, `clean_sku` equals `clean`
under the instance's configuration followed by deleting every codepoint
outside `[\w\-.]` (word character, hyphen, literal dot) and uppercasing;
in particular `clean_sku('sku-123_ABC!') = 'SKU-123_ABC'`. -/
theorem cleanSku_is_filter_upper_of_clean :
    (∀ (cfg : Config) (s : Str),
      cleanSku cfg s
        = ((clean cfg s).filter
            (fun c => pyIsWordChar c || c = '-' || c = '.')).map pyToUpper) ∧
      cleanSku {} "sku-123_ABC!".data = "SKU-123_ABC".data := by
  constructor
  · intro cfg s
    by_cases hs : s = []
    · subst hs
      simp [cleanSku]
    · unfold cleanSku
      rw [if_neg hs]
  · decide

/-! ## C9 (amended part) -/

/-- C9 (amended): a second application of `clean_email` only strips the
leading/trailing whitespace that deleting invisible and special-space
codepoints can expose: `clean_email(clean_email(s)) =
strip(clean_email(s))`; `clean_email` is therefore idempotent exactly on
inputs whose image is already stripped, and the exposed-space inputs (such
as `'a ​'`) are the only failures. -/
theorem cleanEmail_twice_strips (s : Str) :
    cleanEmail (cleanEmail s) = pyStrip (cleanEmail s) := by
  by_cases hs : s = []
  · subst hs
    simp [cleanEmail]
  · have hy : cleanEmail s = (((pyStrip s).map pyToLower).filter
        (fun c => !(INVISIBLE_CHARS c))).filter
      (fun c => !(SPECIAL_SPACES.contains c)) := by
      rw [cleanEmail, if_neg hs]
    generalize hgen : cleanEmail s = y at hy ⊢
    by_cases hyn : y = []
    · rw [hyn]
      simp [cleanEmail]
    · rw [cleanEmail, if_neg hyn]
      have hmem : ∀ c ∈ y, c ∈ (pyStrip s).map pyToLower := by
        intro c hc
        rw [hy] at hc
        exact List.mem_of_mem_filter (List.mem_of_mem_filter hc)
      clear hgen
      have hlow : ∀ c ∈ pyStrip y, pyToLower c = c := by
        intro c hc
        obtain ⟨d, _, hd⟩ := List.mem_map.mp (hmem c (mem_of_mem_pyStrip hc))
        rw [← hd, pyToLower_idem]
      have hinv : ∀ c ∈ pyStrip y, !(INVISIBLE_CHARS c) := by
        intro c hc
        have h0 := mem_of_mem_pyStrip hc
        rw [hy] at h0
        have h1 : c ∈ ((pyStrip s).map pyToLower).filter
            (fun c => !(INVISIBLE_CHARS c)) := List.mem_of_mem_filter h0
        have h2 := List.of_mem_filter h1
        exact h2
      have hsp : ∀ c ∈ pyStrip y, !(SPECIAL_SPACES.contains c) := by
        intro c hc
        have h0 := mem_of_mem_pyStrip hc
        rw [hy] at h0
        have h2 := List.of_mem_filter h0
        exact h2
      rw [map_eq_self_of_mem hlow, List.filter_eq_self.mpr hinv,
        List.filter_eq_self.mpr hsp]

/-! ## C9 (counterexample part) -/

/-- C9 counterexample: `clean_email` is not idempotent: on `"a ​"`
(letter, space, zero-width space) it strips first and deletes the
`SPECIAL_SPACES` codepoint afterwards, leaving the trailing ASCII space
`"a "`; a second application strips that space away. -/
theorem cleanEmail_not_idempotent :
    cleanEmail (cleanEmail "a ​".data) ≠ cleanEmail "a ​".data := by
  decide

/-! ## C10 -/

/-- C10: when the input is longer than `max_length` and the only space
among its first `max_length` codepoints is at position 0, `truncate`
discards all of the original content and returns exactly the suffix. -/
theorem truncate_returns_only_suffix (text : Str) (m : Nat) (suffix : Str)
    (_hm : 0 < m) (hlen : m < text.length)
    (hhead : (text.take m).head? = some ' ')
    (hrest : ∀ c ∈ (text.take m).tail, c ≠ ' ') :
    truncate text m suffix = suffix := by
  have htext : ¬(text = [] ∨ text.length ≤ m) := by
    rintro (h | h)
    · subst h
      simp at hlen
    · omega
  unfold truncate
  rw [if_neg htext]
  cases hcut : text.take m with
  | nil =>
    rw [hcut] at hhead
    simp at hhead
  | cons c rest =>
    rw [hcut] at hhead
    simp at hhead
    subst hhead
    rw [hcut] at hrest
    simp only [List.tail_cons] at hrest
    have hnone : beforeLastSpace rest = none :=
      beforeLastSpace_eq_none.mpr (fun h => hrest ' ' h rfl)
    have hbls : beforeLastSpace (' ' :: rest) = some [] := by
      unfold beforeLastSpace
      rw [hnone]
      simp
    unfold rsplitBeforeLastSpace
    rw [hbls]
    simp

/-- C10 witness: `truncate(' abcdef', 3) = '...'`. -/
theorem truncate_returns_only_suffix_witness :
    truncate " abcdef".data 3 "...".data = "...".data :=
  truncate_returns_only_suffix " abcdef".data 3 "...".data (by decide)
    (by decide) (by decide) (by decide)

end Claims
